import Mathlib

/-!
Verification development for the paper-service module
(`src/app/renderer/services/paper-service.ts`).

Strings are embedded as `List Char`.  JavaScript regular-expression
scanning over the two fixed patterns used by the advanced search mode
(`/(<|<=|>|>=)\s*\[\d+ DAYS\]/g` and `/\[\d+ DAYS\]/g`) is embedded as
explicit left-to-right scanners.  All scanners are written with an
explicit fuel argument (instantiated with the input length) so that every
definition is structurally recursive and kernel-reducible.
-/

namespace Paperlib

/-- Characters matched by the JavaScript `\s` class that can occur in the
sanitized search strings (space, tab, newline, carriage return). -/
def isJsWs (c : Char) : Bool :=
  c = ' ' || c = '\t' || c = '\n' || c = '\r'

/-- The two comparison-operator characters `<` and `>`. -/
def isCmpChar (c : Char) : Bool :=
  c = '<' || c = '>'

/-- A list of characters containing neither `<` nor `>`. -/
def cmpFree (l : List Char) : Bool :=
  l.all (fun c => !(isCmpChar c))

/-- Numeric value of a list of decimal digit characters (the value JS
`parseInt` gives on an all-digit string). -/
def natOfDigits (l : List Char) : Nat :=
  l.foldl (fun a c => 10 * a + (c.toNat - '0'.toNat)) 0

/-- JavaScript `parseInt` restricted to the shapes reachable here: skip
leading whitespace, then read a nonempty run of decimal digits; `none`
models `NaN`. -/
def parseIntJS (l : List Char) : Option Nat :=
  let l1 := l.dropWhile isJsWs
  let ds := l1.takeWhile Char.isDigit
  if ds.isEmpty then none else some (natOfDigits ds)

/-- JavaScript `String.prototype.slice` with possibly negative indices. -/
def jsSlice (l : List Char) (a b : Int) : List Char :=
  let n : Int := l.length
  let norm : Int → Nat := fun i =>
    if i < 0 then (max (n + i) 0).toNat else (min i n).toNat
  let a1 := norm a
  let b1 := norm b
  (l.drop a1).take (b1 - a1)

/-- Strip an expected prefix: `stripPre p l = some r` iff `l = p ++ r`. -/
def stripPre : List Char → List Char → Option (List Char)
  | [], l => some l
  | _ :: _, [] => none
  | p :: ps, c :: cs => if c = p then stripPre ps cs else none

theorem stripPre_eq_some {p l r : List Char} (h : stripPre p l = some r) :
    l = p ++ r := by
  induction p generalizing l with
  | nil => simpa [stripPre] using h
  | cons c cs ih =>
    cases l with
    | nil => simp [stripPre] at h
    | cons x xs =>
      by_cases hx : x = c
      · subst hx
        simp only [stripPre, if_pos rfl] at h
        simpa using ih h
      · simp [stripPre, hx] at h

theorem stripPre_append (p r : List Char) : stripPre p (p ++ r) = some r := by
  induction p with
  | nil => simp [stripPre]
  | cons c cs ih => simp [stripPre, ih]

/-- The fixed suffix ` DAYS]` of a date token. -/
def daysSuffix : List Char := [' ', 'D', 'A', 'Y', 'S', ']']

/-- The date token `[<digits> DAYS]` built from a digit list. -/
def dateTok (ds : List Char) : List Char := '[' :: ds ++ daysSuffix

/-- Match the regex `\[\d+ DAYS\]` at the head of the input.  On success
returns the matched characters and the rest of the input.  (The greedy
`\d+` never backtracks usefully here because the character after a
shorter digit run would have to be both a digit and a space.) -/
def matchDate : List Char → Option (List Char × List Char)
  | [] => none
  | c :: cs =>
    if c = '[' then
      let ds := cs.takeWhile Char.isDigit
      let r := cs.dropWhile Char.isDigit
      if ds.isEmpty then none
      else
        match stripPre daysSuffix r with
        | some rest => some (dateTok ds, rest)
        | none => none
    else none

theorem matchDate_eq_some {l m rest : List Char}
    (h : matchDate l = some (m, rest)) :
    ∃ ds, ds ≠ [] ∧ ds.all Char.isDigit ∧ m = dateTok ds ∧
      l = dateTok ds ++ rest := by
  match l with
  | [] => simp [matchDate] at h
  | c :: cs =>
    rw [matchDate] at h
    by_cases hc : c = '['
    · rw [if_pos hc] at h
      subst hc
      dsimp only at h
      by_cases hds : (cs.takeWhile Char.isDigit).isEmpty
      · rw [if_pos hds] at h; cases h
      · rw [if_neg hds] at h
        cases hstrip : stripPre daysSuffix (cs.dropWhile Char.isDigit) with
        | none => rw [hstrip] at h; cases h
        | some r2 =>
          rw [hstrip] at h
          have hm : dateTok (cs.takeWhile Char.isDigit) = m ∧ r2 = rest := by
            have := Option.some.inj h
            exact ⟨congrArg Prod.fst this, congrArg Prod.snd this⟩
          obtain ⟨hm, hr⟩ := hm
          refine ⟨cs.takeWhile Char.isDigit, ?_, ?_, hm.symm, ?_⟩
          · intro hnil; rw [hnil] at hds; simp at hds
          · exact List.all_takeWhile (p := Char.isDigit) (l := cs)
          · have hcs : cs = cs.takeWhile Char.isDigit ++ cs.dropWhile Char.isDigit :=
              (List.takeWhile_append_dropWhile (p := Char.isDigit) (l := cs)).symm
            have h2 : cs.dropWhile Char.isDigit = daysSuffix ++ r2 :=
              stripPre_eq_some hstrip
            subst hr
            simp only [dateTok, List.cons_append, List.cons.injEq, true_and]
            rw [List.append_assoc]
            rw [← h2]
            exact hcs
    · rw [if_neg hc] at h; cases h

/-- The four comparison operators of the advanced-search date rule. -/
inductive CmpOp | lt | le | gt | ge
deriving DecidableEq

/-- Characters of a comparison operator. -/
def opChars : CmpOp → List Char
  | .lt => ['<']
  | .le => ['<', '=']
  | .gt => ['>']
  | .ge => ['>', '=']

/-- The inverted operator (`<`↔`>`, `<=`↔`>=`). -/
def invOp : CmpOp → CmpOp
  | .lt => .gt
  | .le => .ge
  | .gt => .lt
  | .ge => .le

/-- After an operator, the regex `\s*\[\d+ DAYS\]` must match: skip
whitespace greedily, then a date token.  Returns the full match
(operator, whitespace and token) plus the rest. -/
def cmpTail (op : List Char) (r : List Char) : Option (List Char × List Char) :=
  let ws := r.takeWhile isJsWs
  let r1 := r.dropWhile isJsWs
  match matchDate r1 with
  | some (tok, rest) => some (op ++ ws ++ tok, rest)
  | none => none

/-- Match the regex `(<|<=|>|>=)\s*\[\d+ DAYS\]` at the head of the
input, with JavaScript alternation/backtracking semantics: a one-char
operator followed by `=` can never complete (`\s*` cannot consume the
`=`), so when the next character is `=` the two-char operator is the only
candidate. -/
def matchCmpAt : List Char → Option (List Char × List Char)
  | [] => none
  | c :: cs =>
    if c = '<' then
      match cs with
      | d :: ds => if d = '=' then cmpTail ['<', '='] ds else cmpTail ['<'] cs
      | [] => cmpTail ['<'] []
    else if c = '>' then
      match cs with
      | d :: ds => if d = '=' then cmpTail ['>', '='] ds else cmpTail ['>'] cs
      | [] => cmpTail ['>'] []
    else none

/-- All matches of `/(<|<=|>|>=)\s*\[\d+ DAYS\]/g`: left-to-right scan,
skipping past each match (fuel-indexed). -/
def scanCmpF : Nat → List Char → List (List Char)
  | 0, _ => []
  | _ + 1, [] => []
  | fuel + 1, c :: cs =>
    match matchCmpAt (c :: cs) with
    | some (m, rest) => m :: scanCmpF fuel rest
    | none => scanCmpF fuel cs

/-- `formatedSearch.match(/(<|<=|>|>=)\s*\[\d+ DAYS\]/g)` (empty list for
a `null` result). -/
def matchAllCmp (l : List Char) : List (List Char) := scanCmpF l.length l

/-- JavaScript `String.prototype.replaceAll` with a literal pattern
(fuel-indexed): leftmost, non-overlapping, the replacement is not
rescanned.  Every call site passes a nonempty pattern (a regex match). -/
def replLitF : Nat → List Char → List Char → List Char → List Char
  | 0, s, _, _ => s
  | _ + 1, [], _, _ => []
  | fuel + 1, c :: cs, pat, repl =>
    match stripPre pat (c :: cs) with
    | some rest => repl ++ replLitF fuel rest pat repl
    | none => c :: replLitF fuel cs pat repl

/-- `s.replaceAll(pat, repl)` for a literal, nonempty `pat`. -/
def replaceAllLit (s pat repl : List Char) : List Char :=
  replLitF s.length s pat repl

/-- The operator-inversion loop of `PaperFilterOptions.update` (lines
91-105): iterate over the precomputed match list; for each match, when
the *current whole string* contains `<` replace every occurrence of the
match text by the match with `<`→`>`; otherwise when it contains `>`
replace by the match with `>`→`<`. -/
def invertLoop : List (List Char) → List Char → List Char
  | [], s => s
  | m :: ms, s =>
    let s1 :=
      if s.contains '<' then replaceAllLit s m (replaceAllLit m ['<'] ['>'])
      else if s.contains '>' then replaceAllLit s m (replaceAllLit m ['>'] ['<'])
      else s
    invertLoop ms s1

/-- The full operator-inversion stage: compute the matches of the pristine
string, then run the loop. -/
def invertStage (s : List Char) : List Char := invertLoop (matchAllCmp s) s

/-- All matches of `/\[\d+ DAYS\]/g` (fuel-indexed scan). -/
def scanDateF : Nat → List Char → List (List Char)
  | 0, _ => []
  | _ + 1, [] => []
  | fuel + 1, c :: cs =>
    match matchDate (c :: cs) with
    | some (m, rest) => m :: scanDateF fuel rest
    | none => scanDateF fuel cs

/-- `formatedSearch.match(/\[\d+ DAYS\]/g)` (empty list for `null`). -/
def matchAllDate (l : List Char) : List (List Char) := scanDateF l.length l

/-- `s.replace(/\[\d+ DAYS\]/g, repl)`: every match of the date regex is
replaced by the same string `repl` (fuel-indexed). -/
def replDateF : Nat → List Char → List Char → List Char
  | 0, s, _ => s
  | _ + 1, [], _ => []
  | fuel + 1, c :: cs, repl =>
    match matchDate (c :: cs) with
    | some (_, rest) => repl ++ replDateF fuel rest repl
    | none => c :: replDateF fuel cs repl

/-- `s.replace(/\[\d+ DAYS\]/g, repl)`. -/
def replaceAllDate (s repl : List Char) : List Char := replDateF s.length s repl

/-- The date-substitution stage of `PaperFilterOptions.update` (lines
107-118).  `rd n` abstracts the store-format timestamp literal the code
renders for "now minus `n` days" (the `Date` arithmetic plus
`toISOString` formatting is environment-dependent and not modelled).
The code takes the day count from the *first* match only
(`dateMatch[0].slice(1, -6)`) and substitutes every occurrence with that
single rendered timestamp.  A `NaN` from `parseInt` is unreachable
because every match has the shape `[<digits> DAYS]`. -/
def dateStage (rd : Nat → List Char) (s : List Char) : List Char :=
  match matchAllDate s with
  | [] => s
  | m :: _ =>
    match parseIntJS (jsSlice m 1 (-6)) with
    | some n => replaceAllDate s (rd n)
    | none => s

/-- The advanced-mode macro expansion: operator inversion, then date
substitution, in the order of the source. -/
def advancedExpand (rd : Nat → List Char) (s : List Char) : List Char :=
  dateStage rd (invertStage s)

/-- Swap a comparison character (`<`↔`>`), leave anything else alone. -/
def swapCmpChar (c : Char) : Char :=
  if c = '<' then '>' else if c = '>' then '<' else c

/-- Claim-side formalisation of the spec's inversion rule: every matched
operator-before-date-token occurrence has its operator inverted in
place, independently of the rest of the string (fuel-indexed scan). -/
def specInvertF : Nat → List Char → List Char
  | 0, s => s
  | _ + 1, [] => []
  | fuel + 1, c :: cs =>
    match matchCmpAt (c :: cs) with
    | some (m, rest) => m.map swapCmpChar ++ specInvertF fuel rest
    | none => c :: specInvertF fuel cs

/-- Claim-side inversion of every matched occurrence. -/
def specInvertEachOp (l : List Char) : List Char := specInvertF l.length l

/-- Day count carried by a date token `[<digits> DAYS]`. -/
def daysOfTok (m : List Char) : Nat :=
  natOfDigits ((m.drop 1).takeWhile Char.isDigit)

/-- Claim-side formalisation of the spec's substitution rule: every
`[<N> DAYS]` occurrence is replaced by the timestamp for *its own* `N`
(fuel-indexed scan). -/
def specSubstF (rd : Nat → List Char) : Nat → List Char → List Char
  | 0, s => s
  | _ + 1, [] => []
  | fuel + 1, c :: cs =>
    match matchDate (c :: cs) with
    | some (m, rest) => rd (daysOfTok m) ++ specSubstF rd fuel rest
    | none => c :: specSubstF rd fuel cs

/-- Claim-side substitution of every date token by its own timestamp. -/
def specSubstEachDate (rd : Nat → List Char) (l : List Char) : List Char :=
  specSubstF rd l.length l

/-- Day count of the first date token of the string (0 when none). -/
def firstDays (s : List Char) : Nat :=
  match matchAllDate s with
  | [] => 0
  | m :: _ => daysOfTok m

/-- Node `path.isAbsolute` (POSIX): the path starts with `/`. -/
def isAbsolutePath : List Char → Bool
  | [] => false
  | c :: _ => c = '/'

/-- Node `path.basename` (POSIX, no extension argument): drop trailing
slashes, then take the final slash-free component. -/
def basenamePosix (l : List Char) : List Char :=
  (((l.reverse).dropWhile (fun c => c = '/')).takeWhile (fun c => c ≠ '/')).reverse

/-- Trim leading and trailing whitespace. -/
def trimChars (l : List Char) : List Char :=
  ((l.dropWhile isJsWs).reverse.dropWhile isJsWs).reverse

/-- Modelled from the spec: `formatString` from `@/base/string` is not
under `src/`; per the spec it sanitizes the input by stripping newline
characters (`removeNewline`) and trimming surrounding whitespace
(`trimWhite`). -/
def formatStringModel (l : List Char) : List Char :=
  trimChars (l.filter (fun c => !(c = '\n' || c = '\r')))

/-- The three search modes of `IPaperFilterOptions.searchMode`. -/
inductive SearchMode | general | fulltext | advanced
deriving DecidableEq

/-- A partial options object passed to `PaperFilterOptions.update`
(`none` = key absent). -/
structure PaperFilterPatch where
  search : Option (List Char) := none
  searchMode : Option SearchMode := none
  flaged : Option Bool := none
  tag : Option (List Char) := none
  folder : Option (List Char) := none
  limit : Option Nat := none

/-- The `PaperFilterOptions` object state: the option fields plus the
recomputed `filters` clause list. -/
structure PaperFilterOptions where
  filters : List (List Char) := []
  search : Option (List Char) := none
  searchMode : Option SearchMode := none
  flaged : Option Bool := none
  tag : Option (List Char) := none
  folder : Option (List Char) := none
  limit : Option Nat := none

/-- The character of a decimal digit value. -/
def digitChar : Nat → Char
  | 0 => '0'
  | 1 => '1'
  | 2 => '2'
  | 3 => '3'
  | 4 => '4'
  | 5 => '5'
  | 6 => '6'
  | 7 => '7'
  | 8 => '8'
  | _ => '9'

/-- Decimal rendering of a natural number (fuel-indexed), the embedding
of the template interpolation `${this.limit}`. -/
def natDigitsF : Nat → Nat → List Char
  | 0, _ => []
  | fuel + 1, n =>
    if n < 10 then [digitChar n]
    else natDigitsF fuel (n / 10) ++ [digitChar (n % 10)]

/-- Decimal rendering of a natural number. -/
def natDigits (n : Nat) : List Char := natDigitsF (n + 1) n

/-- JS truthiness of an optional string field. -/
def truthyStr : Option (List Char) → Bool
  | none => false
  | some s => !s.isEmpty

/-- JS truthiness of an optional boolean field. -/
def truthyBool : Option Bool → Bool
  | none => false
  | some b => b

/-- JS truthiness of an optional number field (`0` is falsy). -/
def truthyNat : Option Nat → Bool
  | none => false
  | some n => decide (n ≠ 0)

/-- A patched field keeps the old value when the key is absent. -/
def patchField {α : Type} (p cur : Option α) : Option α :=
  match p with
  | some v => some v
  | none => cur

/-- The general-mode fuzzy search string:
`*${formatedSearch.trim().split(" ").join("*")}*`. -/
def fuzzyOf (s : List Char) : List Char :=
  '*' :: (List.intercalate ['*'] ((trimChars s).splitOn ' ') ++ ['*'])

/-- The general-mode clause over title/authors/publication/note. -/
def generalClause (s : List Char) : List Char :=
  let f := fuzzyOf s
  "(title LIKE[c] \"".data ++ f ++ "\" OR authors LIKE[c] \"".data ++ f ++
    "\" OR publication LIKE[c] \"".data ++ f ++ "\" OR note LIKE[c] \"".data ++
    f ++ "\")".data

/-- The fulltext-mode clause. -/
def fulltextClause (s : List Char) : List Char :=
  "(fulltext contains[c] \"".data ++ s ++ "\")".data

/-- The flagged clause. -/
def flagClause : List Char := "(flag == true)".data

/-- The tag-membership clause. -/
def tagClause (t : List Char) : List Char :=
  "(ANY tags.name == \"".data ++ t ++ "\")".data

/-- The folder-membership clause. -/
def folderClause (f : List Char) : List Char :=
  "(ANY folders.name == \"".data ++ f ++ "\")".data

/-- `PaperFilterOptions.update`: copy the provided option keys, then
recompute the `filters` clause list from scratch.  `rd` abstracts the
timestamp rendering of the compile call (see `dateStage`). -/
def PaperFilterOptions.update (rd : Nat → List Char) (o : PaperFilterOptions)
    (p : PaperFilterPatch) : PaperFilterOptions :=
  let o1 : PaperFilterOptions :=
    { filters := []
      search := patchField p.search o.search
      searchMode := patchField p.searchMode o.searchMode
      flaged := patchField p.flaged o.flaged
      tag := patchField p.tag o.tag
      folder := patchField p.folder o.folder
      limit := patchField p.limit o.limit }
  let searchFilters : List (List Char) :=
    if truthyStr o1.search then
      let formatted := formatStringModel (o1.search.getD [])
      match o1.searchMode with
      | none => [generalClause formatted]
      | some .general => [generalClause formatted]
      | some .advanced => [advancedExpand rd formatted]
      | some .fulltext => [fulltextClause formatted]
    else []
  let fs :=
    searchFilters ++
    (if truthyBool o1.flaged then [flagClause] else []) ++
    (if truthyStr o1.tag then [tagClause (o1.tag.getD [])] else []) ++
    (if truthyStr o1.folder then [folderClause (o1.folder.getD [])] else [])
  { o1 with filters := fs }

/-- The `PaperFilterOptions` constructor: start from the empty object,
then apply `update` when options are provided. -/
def PaperFilterOptions.new (rd : Nat → List Char) :
    Option PaperFilterPatch → PaperFilterOptions
  | some p => PaperFilterOptions.update rd {} p
  | none => {}

/-- `PaperFilterOptions.toString`: join the clauses with ` AND `; when
the `limit` field is truthy, append ` LIMIT(<limit>)`. -/
def PaperFilterOptions.toString (o : PaperFilterOptions) : List Char :=
  let filterStr := List.intercalate " AND ".data o.filters
  if truthyNat o.limit then
    filterStr ++ " LIMIT(".data ++ natDigits (o.limit.getD 0) ++ [')']
  else filterStr

/-- Whether a string ends with a limit directive ` LIMIT(<digits>)`. -/
def endsWithLimitDirective (s : List Char) : Bool :=
  match s.reverse with
  | [] => false
  | c :: r1 =>
    c = ')' && !(r1.takeWhile Char.isDigit).isEmpty &&
      (stripPre (" LIMIT(".data.reverse) (r1.dropWhile Char.isDigit)).isSome

/-- Modelled from the spec: object ids (`OID`) are compared in the source
via template-string rendering (`` `${a._id}` !== `${b._id}` ``); the model
takes the rendered id string itself as the identity. -/
abbrev OID := List Char

/-- Modelled from the spec: a categorizer (tag or folder) is a named
classification entity with an identity. -/
structure Categorizer where
  oid : OID
  name : List Char
deriving DecidableEq

/-- Modelled from the spec: a draft's membership of a specific
categorizer, identified by the categorizer's identity. -/
structure CatMembership where
  oid : OID
  name : List Char
deriving DecidableEq

/-- Modelled from the spec: `new PaperTag(categorizer)` /
`new PaperFolder(categorizer)` construct a membership from the
categorizer, carrying the categorizer's identity. -/
def membershipOf (c : Categorizer) : CatMembership :=
  { oid := c.oid, name := c.name }

/-- The two categorizer kinds used by the paper service. -/
inductive CategorizerType | paperTag | paperFolder
deriving DecidableEq

/-- Modelled from the spec: the `CategorizerType` enum values are the
nonempty strings `"PaperTag"` and `"PaperFolder"`. -/
def CategorizerType.strVal : CategorizerType → List Char
  | .paperTag => "PaperTag".data
  | .paperFolder => "PaperFolder".data

/-- JS truthiness of a `CategorizerType` value (always true: the enum
values are nonempty strings). -/
def truthyType (t : CategorizerType) : Bool := !t.strVal.isEmpty

/-- Modelled from the spec (§3): a paper entity draft.  `@/models/paper-entity`
is not under `src/`. -/
structure PaperEntity where
  oid : OID := []
  title : List Char := []
  authors : List Char := []
  publication : List Char := []
  note : List Char := []
  flag : Bool := false
  tags : List CatMembership := []
  folders : List CatMembership := []
  mainURL : List Char := []
  supURLs : List (List Char) := []
deriving DecidableEq

/-- The per-draft membership mutation of `updateWithCategorizer` (lines
423-439): remove the memberships of the relevant kind whose rendered id
equals the categorizer's, then push a membership built from the
categorizer. -/
def categorizerMutation (ty : CategorizerType) (c : Categorizer)
    (e : PaperEntity) : PaperEntity :=
  if ty = .paperTag then
    { e with tags := e.tags.filter (fun t => t.oid ≠ c.oid) ++ [membershipOf c] }
  else if ty = .paperFolder then
    { e with folders := e.folders.filter (fun f => f.oid ≠ c.oid) ++ [membershipOf c] }
  else e

/-- The per-draft mutation of `createIntoCategorizer` (lines 546-554).
The source's first branch condition is `(type = CategorizerType.PaperTag)`:
an assignment whose value (the nonempty string `"PaperTag"`) is truthy,
so the tag branch is always taken and the folder branch is unreachable. -/
def createIntoCategorizerMutation (ty : CategorizerType) (c : Categorizer)
    (e : PaperEntity) : PaperEntity :=
  let ty1 := CategorizerType.paperTag
  if truthyType ty1 then { e with tags := [membershipOf c] }
  else if ty1 = CategorizerType.paperFolder then
    { e with folders := [membershipOf c] }
  else
    let _ := ty
    e

/-- Payloads handed to the scrape collaborator. -/
inductive ScrapePayload
  | file (url : List Char)
  | entity (e : PaperEntity)
deriving DecidableEq

/-- Observable collaborator effects of the service operations (store,
filesystem, cache, scrape collaborator, preference writes).  Log output
is not modelled. -/
inductive Action
  | storeLoad (query : List Char)
  | storeLoadByIds (ids : List OID)
  | storeUpdate (e : PaperEntity) (outcome : Option Bool)
  | storeDelete (ids : Option (List OID)) (entities : Option (List PaperEntity))
  | fileAccess (url : List Char)
  | fileMove (e : PaperEntity) (cut : Bool)
  | fileMoveForce (e : PaperEntity)
  | fileMoveFile (fromURL toURL : List Char)
  | fileRemoveEntity (e : PaperEntity)
  | fileRemoveFile (url : List Char)
  | cacheUpdate (es : List PaperEntity)
  | cacheDelete (ids : List OID)
  | cacheFullTextFilter (q : List Char)
  | scrapeCall (payloads : List ScrapePayload)
  | prefSet (lastRematchTime : Int)
deriving DecidableEq

/-- Result of the file collaborator's `move` (per the spec contract it
may return a relocated draft or `null`; a rejected promise is `thrown`,
which `chunkRun` captures). -/
inductive MoveRes
  | thrown
  | nullRes
  | ok (e : PaperEntity)
deriving DecidableEq

/-- The collaborator oracles and ambient state a service call runs
against.  Per-call collaborator behaviour is a pure function of the
argument (the store and file system are treated as deterministic within
one call). -/
structure Env where
  dbInitializing : Bool
  sourceFileOperationCut : Bool
  access : List Char → Bool
  move : PaperEntity → Bool → MoveRes
  moveForce : PaperEntity → Option PaperEntity
  repoUpdate : PaperEntity → Option Bool
  repoLoad : List Char → List Char → List Char → List PaperEntity
  repoLoadByIds : List OID → List PaperEntity
  repoDelete : Option (List OID) → Option (List PaperEntity) → List (List Char)
  scrapeSvc : List ScrapePayload → List (List Char) → Bool → List PaperEntity
  cacheFilter : List Char → List PaperEntity → List PaperEntity
  allowRoutineMatch : Bool
  lastRematchTime : Int
  now : Int
  nowAfter : Int

/-- The worker's first step (lines 286-297): when the primary file is no
longer accessible and the reference is nonempty, blank the reference on
the draft before relocation. -/
def accessBlank (env : Env) (e : PaperEntity) : PaperEntity :=
  if !(env.access e.mainURL) && !e.mainURL.isEmpty then { e with mainURL := [] }
  else e

/-- Modelled from the spec (§4.2) at this call site: `chunkRun` runs the
worker per item, substituting the fallback (the item itself, as already
mutated by the worker) on failure; effects are linearized in input
order.  Result entry: `none` when `move` resolved to `null`. -/
def stage1One (env : Env) (e : PaperEntity) :
    Option PaperEntity × List Action :=
  let e1 := accessBlank env e
  let acts := [Action.fileAccess e.mainURL,
               Action.fileMove e1 env.sourceFileOperationCut]
  match env.move e1 env.sourceFileOperationCut with
  | .thrown => (some e1, acts)
  | .nullRes => (none, acts)
  | .ok e2 => (some e2, acts)

/-- The path normalization of one draft (lines 318-334): a still-absolute
primary reference is blanked, otherwise reduced to its base name; still-
absolute supplementary references are dropped. -/
def normDraft (e : PaperEntity) : PaperEntity :=
  { e with
    mainURL :=
      if !e.mainURL.isEmpty && isAbsolutePath e.mainURL then []
      else basenamePosix e.mainURL
    supURLs := e.supURLs.filter (fun u => !(isAbsolutePath u)) }

/-- The normalization map over the stage-1 results.  A `null` entry makes
the property access `paperEntityDraft.mainURL` throw; the decorator
`@errorcatching` then converts the whole call to its safe default. -/
def normalizeAll : List (Option PaperEntity) → Option (List PaperEntity)
  | [] => some []
  | none :: _ => none
  | some e :: rest => (normalizeAll rest).map (fun l => normDraft e :: l)

/-- The sequential persistence stage (lines 339-361): one store write per
draft in order; a throw is captured and treated as failure; the entry
list is null-padded (`some e` on success, `none` otherwise). -/
def stage3 (env : Env) : List PaperEntity → List (Option PaperEntity) × List Action
  | [] => ([], [])
  | e :: rest =>
    let outcome := env.repoUpdate e
    let entry : Option PaperEntity :=
      match outcome with
      | some true => some e
      | _ => none
    let r := stage3 env rest
    (entry :: r.1, Action.storeUpdate e outcome :: r.2)

/-- The filesystem reconciliation stage (lines 364-378): remove the files
of drafts whose write failed; rename when the stored primary name
differs (the entry aliases the same draft, so this branch never fires in
the pure model, mirroring the aliasing in the source). -/
def stage4 : List PaperEntity → List (Option PaperEntity) → List Action
  | [], _ => []
  | _ :: _, [] => []
  | f :: fs, u :: us =>
    (match u with
     | none => [Action.fileRemoveEntity f]
     | some ue =>
       if f.mainURL ≠ ue.mainURL then [Action.fileMoveFile f.mainURL ue.mainURL]
       else []) ++ stage4 fs us

/-- `PaperService.update` (lines 264-393): the full pipeline, returning
the successfully persisted drafts and the collaborator-effect trace. -/
def PaperService.update (env : Env) (drafts : List PaperEntity) :
    List PaperEntity × List Action :=
  if env.dbInitializing then ([], [])
  else
    let s1 := drafts.map (stage1One env)
    let moved : List (Option PaperEntity) := s1.map (·.1)
    let acts1 : List Action := (s1.map (·.2)).flatten
    match normalizeAll moved with
    | none => ([], acts1)
    | some normed =>
      let r3 := stage3 env normed
      let acts4 := stage4 normed r3.1
      let successes := r3.1.filterMap id
      (successes, acts1 ++ r3.2 ++ acts4 ++ [Action.cacheUpdate successes])

/-- `PaperService.load` (lines 203-233): guard on store initialization,
then one repository load; with a truthy fulltext query sentence the
result is post-filtered through the cache collaborator. -/
def PaperService.load (env : Env) (querySentence sortBy sortOrder : List Char)
    (fulltextQuerySentence : Option (List Char)) :
    List PaperEntity × List Action :=
  if env.dbInitializing then ([], [])
  else if truthyStr fulltextQuerySentence then
    let all := env.repoLoad querySentence sortBy sortOrder
    (env.cacheFilter (fulltextQuerySentence.getD []) all,
     [Action.storeLoad querySentence,
      Action.cacheFullTextFilter (fulltextQuerySentence.getD [])])
  else
    (env.repoLoad querySentence sortBy sortOrder,
     [Action.storeLoad querySentence])

/-- `PaperService.loadByIds` (lines 247-255). -/
def PaperService.loadByIds (env : Env) (ids : List OID) :
    List PaperEntity × List Action :=
  if env.dbInitializing then ([], [])
  else (env.repoLoadByIds ids, [Action.storeLoadByIds ids])

/-- `PaperService.updateWithCategorizer` (lines 408-442): load the
entities, clone them, apply the membership upsert, then update.  The
clone `new PaperEntity(paperEntity)` is modelled as a value copy. -/
def PaperService.updateWithCategorizer (env : Env) (ids : List OID)
    (c : Categorizer) (ty : CategorizerType) : List Action :=
  if env.dbInitializing then []
  else
    let r := PaperService.loadByIds env ids
    let drafts := r.1.map (categorizerMutation ty c)
    let ru := PaperService.update env drafts
    r.2 ++ ru.2

/-- `PaperService.delete` (lines 451-477): delete the store rows, then
best-effort remove the returned (truthy) file URLs, then evict the cache
when either ids or entities were provided. -/
def PaperService.delete (env : Env) (ids : Option (List OID))
    (paperEntities : Option (List PaperEntity)) : List Action :=
  if env.dbInitializing then []
  else
    let files := env.repoDelete ids paperEntities
    let removeActs := files.filterMap
      (fun url => if url.isEmpty then none else some (Action.fileRemoveFile url))
    let cacheIds : Option (List OID) :=
      match ids with
      | some is => some is
      | none => paperEntities.map (fun es => es.map (·.oid))
    Action.storeDelete ids paperEntities :: removeActs ++
      (match cacheIds with
       | some cids => [Action.cacheDelete cids]
       | none => [])

/-- `PaperService.deleteSup` (lines 486-498): NO store-initialization
guard in the source; remove the supplementary file, strip it from the
draft's list, then update the single draft. -/
def PaperService.deleteSup (env : Env) (e : PaperEntity) (url : List Char) :
    List Action :=
  let e1 := { e with supURLs := e.supURLs.filter (fun s => s ≠ basenamePosix url) }
  let ru := PaperService.update env [e1]
  Action.fileRemoveFile url :: ru.2

/-- `PaperService.create` (lines 507-520): NO store-initialization guard
in the source; scrape the file payloads, then update the scraped
drafts. -/
def PaperService.create (env : Env) (urlList : List (List Char)) :
    List PaperEntity × List Action :=
  let payloads := urlList.map ScrapePayload.file
  let scraped := env.scrapeSvc payloads [] false
  let ru := PaperService.update env scraped
  (ru.1, Action.scrapeCall payloads :: ru.2)

/-- `PaperService.createIntoCategorizer` (lines 536-557): guard, create
from URLs, apply the (buggy) membership replacement, update again. -/
def PaperService.createIntoCategorizer (env : Env) (urlList : List (List Char))
    (c : Categorizer) (ty : CategorizerType) : List PaperEntity × List Action :=
  if env.dbInitializing then ([], [])
  else
    let rc := PaperService.create env urlList
    let drafts := rc.1.map (createIntoCategorizerMutation ty c)
    let ru := PaperService.update env drafts
    (ru.1, rc.2 ++ ru.2)

/-- `PaperService.scrape` (lines 566-592): guard, scrape the entity
payloads, then update the scraped drafts. -/
def PaperService.scrape (env : Env) (paperEntities : List PaperEntity)
    (specificScrapers : Option (List (List Char))) : List Action :=
  if env.dbInitializing then []
  else
    let payloads := paperEntities.map ScrapePayload.entity
    let scraped := env.scrapeSvc payloads (specificScrapers.getD [])
      specificScrapers.isSome
    let ru := PaperService.update env scraped
    Action.scrapeCall payloads :: ru.2

/-- The preprint predicate string of `scrapePreprint` (line 623). -/
def preprintQuery : List Char :=
  ("(publication contains[c] \"arXiv\") OR " ++
   "(publication contains[c] \"openreview\") OR publication == \"\"").data

/-- `PaperService.scrapePreprint` (lines 603-636): guard, preference
gate, threshold check against `7 * 86400 - 10` seconds; an active cycle
loads the preprints, scrapes them and finally stamps the last-rematch
preference with the (post-scrape) current time.  Returns the resulting
`lastRematchTime` preference value and the trace. -/
def PaperService.scrapePreprint (env : Env) : Int × List Action :=
  if env.dbInitializing then (env.lastRematchTime, [])
  else if env.allowRoutineMatch then
    if env.now - env.lastRematchTime < 7 * 86400 - 10 then
      (env.lastRematchTime, [])
    else
      let preprints := env.repoLoad preprintQuery "addTime".data "desc".data
      let actsS := PaperService.scrape env preprints none
      (env.nowAfter,
       Action.storeLoad preprintQuery :: actsS ++ [Action.prefSet env.nowAfter])
  else (env.lastRematchTime, [])

/-- `PaperService.renameAll` (lines 643-666): guard, reload everything
sorted by title, force-relocate each draft (null results fall back to
the original draft), then update. -/
def PaperService.renameAll (env : Env) : List Action :=
  if env.dbInitializing then []
  else
    let rl := PaperService.load env [] "title".data "desc".data none
    let drafts := rl.1
    let moved := drafts.map (fun d => (env.moveForce d).getD d)
    let actsM := drafts.map Action.fileMoveForce
    let ru := PaperService.update env moved
    rl.2 ++ actsM ++ ru.2

theorem filter_self_of_filter {α : Type} (p : α → Bool) (l : List α) :
    (l.filter p).filter p = l.filter p := by
  rw [List.filter_filter]
  simp

/-- Claim C8: the membership mutation of `updateWithCategorizer` is an
idempotent upsert: applying the same categorizer once or twice leaves the
draft with exactly one membership of the categorizer's identity in the
list of the relevant kind, memberships with other identities unchanged,
and the list of the other kind untouched. -/
theorem c8_categorizer_upsert (c : Categorizer) (e : PaperEntity) :
    (∀ ty, categorizerMutation ty c (categorizerMutation ty c e) =
      categorizerMutation ty c e) ∧
    ((categorizerMutation .paperTag c e).tags.countP
      (fun m => m.oid = c.oid) = 1) ∧
    ((categorizerMutation .paperTag c e).tags.filter
      (fun m => m.oid ≠ c.oid) = e.tags.filter (fun m => m.oid ≠ c.oid)) ∧
    ((categorizerMutation .paperTag c e).folders = e.folders) ∧
    ((categorizerMutation .paperFolder c e).folders.countP
      (fun m => m.oid = c.oid) = 1) ∧
    ((categorizerMutation .paperFolder c e).folders.filter
      (fun m => m.oid ≠ c.oid) = e.folders.filter (fun m => m.oid ≠ c.oid)) ∧
    ((categorizerMutation .paperFolder c e).tags = e.tags) := by
  refine ⟨?_, ?_, ?_, rfl, ?_, ?_, rfl⟩
  · intro ty
    cases ty <;>
      simp [categorizerMutation, List.filter_append, filter_self_of_filter,
        membershipOf]
  · simp [categorizerMutation, List.countP_append, membershipOf,
      List.countP_eq_zero]
  · simp [categorizerMutation, List.filter_append, filter_self_of_filter,
      membershipOf]
  · simp [categorizerMutation, List.countP_append, membershipOf,
      List.countP_eq_zero]
  · simp [categorizerMutation, List.filter_append, filter_self_of_filter,
      membershipOf]

/-- Claim C4 (code bug): in `createIntoCategorizer` the branch condition
is the assignment `(type = CategorizerType.PaperTag)`, whose value is the
truthy string "PaperTag"; at the failing input (kind `paperFolder`,
folder categorizer `f1`, fresh draft) the code therefore replaces the
draft's tags with a tag membership built from the folder categorizer and
leaves the folders empty, instead of installing the folder membership. -/
theorem c4_folder_branch_unreachable :
    createIntoCategorizerMutation CategorizerType.paperFolder
        { oid := "f1".data, name := "Folder".data } {} =
      { tags := [{ oid := "f1".data, name := "Folder".data }] } ∧
    (createIntoCategorizerMutation CategorizerType.paperFolder
        { oid := "f1".data, name := "Folder".data } {}).folders = [] ∧
    (createIntoCategorizerMutation CategorizerType.paperFolder
        { oid := "f1".data, name := "Folder".data } {}).folders ≠
      [membershipOf { oid := "f1".data, name := "Folder".data }] := by
  refine ⟨rfl, rfl, by decide⟩

/-- Whether an action touches the record store, the filesystem, or the
cache (the effect classes enumerated by the guard claim; calls into the
scrape collaborator and preference writes are outside them). -/
def touchesStoreFsCache : Action → Bool
  | .scrapeCall _ => false
  | .prefSet _ => false
  | _ => true

/-- The guard claim as stated: with the store initializing, every public
operation returns an empty result and records no effect at all. -/
def c3AsStated : Prop :=
  ∀ (env : Env) (e : PaperEntity) (url : List Char),
    env.dbInitializing = true →
      PaperService.deleteSup env e url = []

/-- A concrete environment whose store reports the initializing state. -/
def envInit : Env :=
  { dbInitializing := true
    sourceFileOperationCut := true
    access := fun _ => true
    move := fun e _ => .ok e
    moveForce := fun e => some e
    repoUpdate := fun _ => some true
    repoLoad := fun _ _ _ => []
    repoLoadByIds := fun _ => []
    repoDelete := fun _ _ => []
    scrapeSvc := fun _ _ _ => []
    cacheFilter := fun _ es => es
    allowRoutineMatch := true
    lastRematchTime := 0
    now := 0
    nowAfter := 0 }

/-- Claim C3 counterexample: `deleteSup` has no initializing guard; with
the store initializing it still removes the given supplementary file, a
filesystem effect. -/
theorem c3_counterexample :
    envInit.dbInitializing = true ∧
    PaperService.deleteSup envInit {} ("sup.pdf".data) =
      [Action.fileRemoveFile ("sup.pdf".data)] ∧
    touchesStoreFsCache (Action.fileRemoveFile ("sup.pdf".data)) = true ∧
    ¬ c3AsStated := by
  refine ⟨rfl, rfl, rfl, fun h => ?_⟩
  have h2 := h envInit {} ("sup.pdf".data) rfl
  simp [PaperService.deleteSup] at h2

/-- Claim C3 (amended): with the store initializing, `load`, `loadByIds`,
`update`, `updateWithCategorizer`, `delete`, `createIntoCategorizer`,
`scrape`, `scrapePreprint` and `renameAll` short-circuit to an empty
result with no effect; `create` returns the empty result but still calls
the scrape collaborator (no store/filesystem/cache effect); `deleteSup`
is not guarded and removes the given file from the filesystem (the inner
`update` still short-circuits, so no store or cache effect occurs). -/
theorem c3_initializing_guards (env : Env) (q sb so : List Char)
    (fq : Option (List Char)) (ids : List OID) (oids : Option (List OID))
    (entities : Option (List PaperEntity)) (c : Categorizer)
    (ty : CategorizerType) (drafts : List PaperEntity) (e : PaperEntity)
    (url : List Char) (urls : List (List Char))
    (scrapers : Option (List (List Char))) :
    PaperService.load { env with dbInitializing := true } q sb so fq = ([], []) ∧
    PaperService.loadByIds { env with dbInitializing := true } ids = ([], []) ∧
    PaperService.update { env with dbInitializing := true } drafts = ([], []) ∧
    PaperService.updateWithCategorizer { env with dbInitializing := true }
      ids c ty = [] ∧
    PaperService.delete { env with dbInitializing := true } oids entities = [] ∧
    PaperService.createIntoCategorizer { env with dbInitializing := true }
      urls c ty = ([], []) ∧
    PaperService.scrape { env with dbInitializing := true } drafts scrapers = [] ∧
    PaperService.scrapePreprint { env with dbInitializing := true } =
      (env.lastRematchTime, []) ∧
    PaperService.renameAll { env with dbInitializing := true } = [] ∧
    PaperService.create { env with dbInitializing := true } urls =
      ([], [Action.scrapeCall (urls.map ScrapePayload.file)]) ∧
    ((PaperService.create { env with dbInitializing := true } urls).2.all
      (fun a => !(touchesStoreFsCache a))) ∧
    PaperService.deleteSup { env with dbInitializing := true } e url =
      [Action.fileRemoveFile url] := by
  refine ⟨rfl, rfl, rfl, rfl, rfl, ?_, rfl, rfl, rfl, ?_, ?_, ?_⟩ <;>
    simp [PaperService.createIntoCategorizer, PaperService.create,
      PaperService.update, PaperService.deleteSup, touchesStoreFsCache]

/-- Claim C9: a firing of the scheduled rescrape task that happens while
`now - lastRematchTime` is under `7*86400 - 10` seconds performs no
effect at all (no store query, no scrape, no update) and leaves the
last-rematch timestamp unchanged; whenever the preference is stamped, a
scrape call occurred in the same cycle; and a second firing composed
after any first firing, still under the threshold relative to the stored
timestamp, is a no-op. -/
theorem c9_rescrape_threshold (env : Env) :
    (env.now - env.lastRematchTime < 7 * 86400 - 10 →
      PaperService.scrapePreprint env = (env.lastRematchTime, [])) ∧
    (∀ v, Action.prefSet v ∈ (PaperService.scrapePreprint env).2 →
      ∃ ps, Action.scrapeCall ps ∈ (PaperService.scrapePreprint env).2) ∧
    (∀ t2, t2 - (PaperService.scrapePreprint env).1 < 7 * 86400 - 10 →
      PaperService.scrapePreprint
          { env with lastRematchTime := (PaperService.scrapePreprint env).1,
                     now := t2 } =
        ((PaperService.scrapePreprint env).1, [])) := by
  have hstep : ∀ e2 : Env, e2.now - e2.lastRematchTime < 7 * 86400 - 10 →
      PaperService.scrapePreprint e2 = (e2.lastRematchTime, []) := by
    intro e2 h2
    rw [PaperService.scrapePreprint]
    by_cases hi : e2.dbInitializing
    · rw [if_pos hi]
    · rw [if_neg hi]
      by_cases ha : e2.allowRoutineMatch
      · rw [if_pos ha, if_pos h2]
      · rw [if_neg ha]
  refine ⟨hstep env, ?_, ?_⟩
  · intro v hv
    rw [PaperService.scrapePreprint] at hv ⊢
    by_cases hi : env.dbInitializing
    · rw [if_pos hi] at hv; simp at hv
    · rw [if_neg hi] at hv ⊢
      by_cases ha : env.allowRoutineMatch
      · rw [if_pos ha] at hv ⊢
        by_cases hlt : env.now - env.lastRematchTime < 7 * 86400 - 10
        · rw [if_pos hlt] at hv; simp at hv
        · rw [if_neg hlt] at hv ⊢
          refine ⟨(env.repoLoad preprintQuery "addTime".data "desc".data).map
            ScrapePayload.entity, ?_⟩
          simp only [PaperService.scrape, if_neg hi]
          simp
      · rw [if_neg ha] at hv; simp at hv
  · intro t2 h2
    exact hstep _ (by simpa using h2)

/-- Witness for `c9_rescrape_threshold`: a concrete in-window firing. -/
theorem c9_rescrape_threshold_witness :
    ({ envInit with dbInitializing := false, now := 100 } : Env).now -
        ({ envInit with dbInitializing := false, now := 100 } : Env).lastRematchTime <
      7 * 86400 - 10 ∧
    PaperService.scrapePreprint { envInit with dbInitializing := false, now := 100 } =
      (0, []) :=
  ⟨by decide,
   (c9_rescrape_threshold { envInit with dbInitializing := false, now := 100 }).1
     (by decide)⟩

theorem digitChar_isDigit (k : Nat) : (digitChar k).isDigit = true := by
  unfold digitChar
  split <;> decide

theorem natDigitsF_ne_nil (fuel n : Nat) : natDigitsF (fuel + 1) n ≠ [] := by
  rw [natDigitsF]
  split
  · simp
  · simp

theorem natDigitsF_all_digits (fuel : Nat) : ∀ n,
    (natDigitsF fuel n).all Char.isDigit = true := by
  induction fuel with
  | zero => intro n; rfl
  | succ f ih =>
    intro n
    rw [natDigitsF]
    split
    · simp [digitChar_isDigit]
    · rw [List.all_append]
      simp [digitChar_isDigit, ih]

theorem natDigits_ne_nil (n : Nat) : natDigits n ≠ [] :=
  natDigitsF_ne_nil n n

theorem natDigits_all_digits (n : Nat) : (natDigits n).all Char.isDigit = true :=
  natDigitsF_all_digits (n + 1) n

theorem takeWhile_append_of_all {α : Type} {p : α → Bool} {l : List α}
    (r : List α) (h : l.all p) :
    (l ++ r).takeWhile p = l ++ r.takeWhile p := by
  induction l with
  | nil => rfl
  | cons c cs ih =>
    simp only [List.all_cons, Bool.and_eq_true] at h
    simp [List.cons_append, List.takeWhile_cons, h.1, ih h.2]

theorem dropWhile_append_of_all {α : Type} {p : α → Bool} {l : List α}
    (r : List α) (h : l.all p) :
    (l ++ r).dropWhile p = r.dropWhile p := by
  induction l with
  | nil => rfl
  | cons c cs ih =>
    simp only [List.all_cons, Bool.and_eq_true] at h
    simp [List.cons_append, List.dropWhile_cons, h.1, ih h.2]

theorem endsWithLimitDirective_append (x ds : List Char) (h1 : ds ≠ [])
    (h2 : ds.all Char.isDigit = true) :
    endsWithLimitDirective (x ++ " LIMIT(".data ++ ds ++ [')']) = true := by
  have hrev : (x ++ " LIMIT(".data ++ ds ++ [')']).reverse =
      ')' :: (ds.reverse ++ (" LIMIT(".data.reverse ++ x.reverse)) := by
    simp
  rw [endsWithLimitDirective, hrev]
  dsimp only
  have hall : ds.reverse.all Char.isDigit = true := by
    rw [List.all_reverse]; exact h2
  have htw : (ds.reverse ++ (" LIMIT(".data.reverse ++ x.reverse)).takeWhile
      Char.isDigit = ds.reverse := by
    rw [takeWhile_append_of_all _ hall]
    simp [List.takeWhile_cons, String.data]
  have hdw : (ds.reverse ++ (" LIMIT(".data.reverse ++ x.reverse)).dropWhile
      Char.isDigit = " LIMIT(".data.reverse ++ x.reverse := by
    rw [dropWhile_append_of_all _ hall]
    simp [List.dropWhile_cons, String.data]
  rw [htw, hdw, stripPre_append]
  simp [h1]

/-- The C10 claim as stated, over states produced by the
`PaperFilterOptions` constructor: a compiled string ends with a
` LIMIT(n)` directive iff the limit field holds a nonzero value. -/
def c10AsStated : Prop :=
  ∀ (rd : Nat → List Char) (p : Option PaperFilterPatch),
    truthyNat (PaperFilterOptions.new rd p).limit = true ↔
      endsWithLimitDirective
        (PaperFilterOptions.toString (PaperFilterOptions.new rd p)) = true

/-- Claim C10 counterexample: with an advanced-mode search whose raw
predicate text itself ends in limit-directive shape (`"x LIMIT(3)"`) and
no limit set, the compiled string still ends with ` LIMIT(3)`, so the
"only if" direction fails. -/
theorem c10_counterexample :
    (PaperFilterOptions.new (fun _ => [])
        (some { search := some ("x LIMIT(3)".data),
                searchMode := some SearchMode.advanced })).limit = none ∧
    endsWithLimitDirective
      (PaperFilterOptions.toString
        (PaperFilterOptions.new (fun _ => [])
          (some { search := some ("x LIMIT(3)".data),
                  searchMode := some SearchMode.advanced }))) = true ∧
    ¬ c10AsStated := by
  refine ⟨by decide, by decide, fun h => ?_⟩
  have h2 := (h (fun _ => [])
    (some { search := some ("x LIMIT(3)".data),
            searchMode := some SearchMode.advanced })).mpr (by decide)
  exact absurd h2 (by decide)

/-- Claim C10 (amended): `toString` appends ` LIMIT(n)` exactly when the
limit field is truthy (nonzero): a nonzero limit yields the joined
clauses followed by the directive (hence the string ends with it); a
limit of 0 compiles to the same string as an unset limit; and a nonzero
limit with no clauses yields exactly the directive prefixed by a single
space.  (The compiled string can also end in directive shape when a
clause itself does — see the counterexample.) -/
theorem c10_limit_directive (o : PaperFilterOptions) (n : Nat) :
    (o.limit = some (n + 1) →
      PaperFilterOptions.toString o =
        List.intercalate (" AND ".data) o.filters ++ " LIMIT(".data ++
          natDigits (n + 1) ++ [')'] ∧
      endsWithLimitDirective (PaperFilterOptions.toString o) = true) ∧
    (PaperFilterOptions.toString { o with limit := some 0 } =
      PaperFilterOptions.toString { o with limit := none }) ∧
    (o.filters = [] → o.limit = some (n + 1) →
      PaperFilterOptions.toString o =
        " LIMIT(".data ++ natDigits (n + 1) ++ [')']) := by
  have hmain : o.limit = some (n + 1) →
      PaperFilterOptions.toString o =
        List.intercalate (" AND ".data) o.filters ++ " LIMIT(".data ++
          natDigits (n + 1) ++ [')'] := by
    intro hl
    rw [PaperFilterOptions.toString, hl]
    simp [truthyNat]
  refine ⟨fun hl => ⟨hmain hl, ?_⟩, ?_, fun hf hl => ?_⟩
  · have hd := endsWithLimitDirective_append
      (List.intercalate (" AND ".data) o.filters) (natDigits (n + 1))
      (natDigits_ne_nil (n + 1)) (natDigits_all_digits (n + 1))
    rw [hmain hl]
    simpa [List.append_assoc] using hd
  · rw [PaperFilterOptions.toString, PaperFilterOptions.toString]
    simp [truthyNat]
  · rw [hmain hl, hf]
    rfl

/-- Witness for `c10_limit_directive`: empty clause list, limit 1. -/
theorem c10_limit_directive_witness :
    ({ filters := [], limit := some 1 } : PaperFilterOptions).filters = [] ∧
    ({ filters := [], limit := some 1 } : PaperFilterOptions).limit = some (0 + 1) ∧
    PaperFilterOptions.toString { filters := [], limit := some 1 } =
      " LIMIT(".data ++ natDigits (0 + 1) ++ [')'] :=
  ⟨rfl, rfl,
   (c10_limit_directive { filters := [], limit := some 1 } 0).2.2 rfl rfl⟩

/-- The drafts recorded as successfully written, in trace order. -/
def successWrites (acts : List Action) : List PaperEntity :=
  acts.filterMap (fun a =>
    match a with
    | .storeUpdate e (some true) => some e
    | _ => none)

/-- The drafts recorded with a failed or throwing write, in trace order. -/
def failedWrites (acts : List Action) : List PaperEntity :=
  acts.filterMap (fun a =>
    match a with
    | .storeUpdate _ (some true) => none
    | .storeUpdate e _ => some e
    | _ => none)

/-- The drafts whose files were removed, in trace order. -/
def removedEntities (acts : List Action) : List PaperEntity :=
  acts.filterMap (fun a =>
    match a with
    | .fileRemoveEntity e => some e
    | _ => none)

theorem stage1One_snd (env : Env) (e : PaperEntity) :
    (stage1One env e).2 = [Action.fileAccess e.mainURL,
      Action.fileMove (accessBlank env e) env.sourceFileOperationCut] := by
  rw [stage1One]
  cases env.move (accessBlank env e) env.sourceFileOperationCut <;> rfl

theorem successWrites_stage1 (env : Env) (ds : List PaperEntity) :
    successWrites ((ds.map (fun d => (stage1One env d).2)).flatten) = [] := by
  induction ds with
  | nil => rfl
  | cons d rest ih =>
    simp only [List.map_cons, List.flatten_cons]
    rw [successWrites, List.filterMap_append, stage1One_snd]
    exact ih

theorem failedWrites_stage1 (env : Env) (ds : List PaperEntity) :
    failedWrites ((ds.map (fun d => (stage1One env d).2)).flatten) = [] := by
  induction ds with
  | nil => rfl
  | cons d rest ih =>
    simp only [List.map_cons, List.flatten_cons]
    rw [failedWrites, List.filterMap_append, stage1One_snd]
    exact ih

theorem removedEntities_stage1 (env : Env) (ds : List PaperEntity) :
    removedEntities ((ds.map (fun d => (stage1One env d).2)).flatten) = [] := by
  induction ds with
  | nil => rfl
  | cons d rest ih =>
    simp only [List.map_cons, List.flatten_cons]
    rw [removedEntities, List.filterMap_append, stage1One_snd]
    exact ih

theorem stage3_success (env : Env) (l : List PaperEntity) :
    (stage3 env l).1.filterMap id = successWrites (stage3 env l).2 := by
  induction l with
  | nil => rfl
  | cons e rest ih =>
    simp only [stage3]
    cases houtcome : env.repoUpdate e with
    | none =>
      simp only [List.filterMap_cons, successWrites] at ih ⊢
      exact ih
    | some b =>
      cases b <;> simp only [List.filterMap_cons, successWrites, id] at ih ⊢ <;>
        simp [ih]

theorem stage4_removed (env : Env) (l : List PaperEntity) :
    removedEntities (stage4 l (stage3 env l).1) =
      failedWrites (stage3 env l).2 := by
  induction l with
  | nil => rfl
  | cons e rest ih =>
    simp only [stage3, stage4]
    cases houtcome : env.repoUpdate e with
    | none =>
      simp only [removedEntities, failedWrites, List.filterMap_cons,
        List.filterMap_append] at ih ⊢
      simp [ih]
    | some b =>
      cases b
      · simp only [removedEntities, failedWrites, List.filterMap_cons,
          List.filterMap_append] at ih ⊢
        simp [ih]
      · simp only [removedEntities, failedWrites, List.filterMap_cons,
          List.filterMap_append] at ih ⊢
        simp [ih]

theorem successWrites_stage4 (l : List PaperEntity)
    (us : List (Option PaperEntity)) :
    successWrites (stage4 l us) = [] := by
  induction l generalizing us with
  | nil => rfl
  | cons f fs ih =>
    cases us with
    | nil => rfl
    | cons u tl =>
      simp only [stage4]
      cases u with
      | none => simpa [successWrites] using ih tl
      | some ue =>
        dsimp only
        split <;> simpa [successWrites] using ih tl

theorem failedWrites_stage4 (l : List PaperEntity)
    (us : List (Option PaperEntity)) :
    failedWrites (stage4 l us) = [] := by
  induction l generalizing us with
  | nil => rfl
  | cons f fs ih =>
    cases us with
    | nil => rfl
    | cons u tl =>
      simp only [stage4]
      cases u with
      | none => simpa [failedWrites] using ih tl
      | some ue =>
        dsimp only
        split <;> simpa [failedWrites] using ih tl

theorem removedEntities_stage3 (env : Env) (l : List PaperEntity) :
    removedEntities (stage3 env l).2 = [] := by
  induction l with
  | nil => rfl
  | cons e rest ih =>
    simp only [stage3]
    cases houtcome : env.repoUpdate e with
    | none => simpa [removedEntities] using ih
    | some b => cases b <;> simpa [removedEntities] using ih

theorem successWrites_append (a b : List Action) :
    successWrites (a ++ b) = successWrites a ++ successWrites b := by
  simp [successWrites, List.filterMap_append]

theorem failedWrites_append (a b : List Action) :
    failedWrites (a ++ b) = failedWrites a ++ failedWrites b := by
  simp [failedWrites, List.filterMap_append]

theorem removedEntities_append (a b : List Action) :
    removedEntities (a ++ b) = removedEntities a ++ removedEntities b := by
  simp [removedEntities, List.filterMap_append]

theorem successWrites_stage1n (env : Env) (ds : List PaperEntity) :
    successWrites (((ds.map (stage1One env)).map (fun x => x.2)).flatten) = [] := by
  have h := successWrites_stage1 env ds
  rw [List.map_map]
  exact h

theorem failedWrites_stage1n (env : Env) (ds : List PaperEntity) :
    failedWrites (((ds.map (stage1One env)).map (fun x => x.2)).flatten) = [] := by
  have h := failedWrites_stage1 env ds
  rw [List.map_map]
  exact h

theorem removedEntities_stage1n (env : Env) (ds : List PaperEntity) :
    removedEntities (((ds.map (stage1One env)).map (fun x => x.2)).flatten) = [] := by
  have h := removedEntities_stage1 env ds
  rw [List.map_map]
  exact h

/-- Claim C5: `update` returns exactly the drafts whose persistence write
succeeded, in write (= input) order: the result list coincides with the
drafts recorded by successful store-write actions of the same call, so a
draft whose write failed or threw never appears and the result is not
null-padded. -/
theorem c5_update_returns_persisted (env : Env) (drafts : List PaperEntity) :
    (PaperService.update env drafts).1 =
      successWrites (PaperService.update env drafts).2 := by
  rw [PaperService.update]
  by_cases hi : env.dbInitializing
  · rw [if_pos hi]
    rfl
  · rw [if_neg hi]
    dsimp only
    cases hnorm : normalizeAll ((drafts.map (stage1One env)).map (fun x => x.1)) with
    | none =>
      simp only [hnorm]
      exact (successWrites_stage1n env drafts).symm
    | some normed =>
      simp only [hnorm]
      rw [successWrites_append, successWrites_append, successWrites_append]
      rw [successWrites_stage1n, successWrites_stage4]
      rw [show successWrites [Action.cacheUpdate ((stage3 env normed).1.filterMap id)] =
        ([] : List PaperEntity) from rfl]
      rw [stage3_success]
      simp

/-- Claim C6: within one `update` call, the file-removal operation is
invoked exactly on the drafts whose store write failed or threw (as
recorded by the write actions of the same call), in order; successfully
persisted drafts are never removed. -/
theorem c6_failed_writes_removed (env : Env) (drafts : List PaperEntity) :
    removedEntities (PaperService.update env drafts).2 =
      failedWrites (PaperService.update env drafts).2 := by
  rw [PaperService.update]
  by_cases hi : env.dbInitializing
  · rw [if_pos hi]
    rfl
  · rw [if_neg hi]
    dsimp only
    cases hnorm : normalizeAll ((drafts.map (stage1One env)).map (fun x => x.1)) with
    | none =>
      simp only [hnorm]
      rw [removedEntities_stage1n, failedWrites_stage1n]
    | some normed =>
      simp only [hnorm]
      rw [removedEntities_append, removedEntities_append, removedEntities_append,
        failedWrites_append, failedWrites_append, failedWrites_append]
      rw [removedEntities_stage1n, failedWrites_stage1n, removedEntities_stage3,
        stage4_removed, failedWrites_stage4]
      rw [show removedEntities [Action.cacheUpdate ((stage3 env normed).1.filterMap id)] =
        ([] : List PaperEntity) from rfl]
      rw [show failedWrites [Action.cacheUpdate ((stage3 env normed).1.filterMap id)] =
        ([] : List PaperEntity) from rfl]
      simp

theorem isAbsolutePath_basenamePosix (u : List Char) :
    isAbsolutePath (basenamePosix u) = false := by
  rw [basenamePosix]
  cases h : ((u.reverse.dropWhile (fun c => c = '/')).takeWhile
      (fun c => c ≠ '/')).reverse with
  | nil => rfl
  | cons c cs =>
    rw [isAbsolutePath]
    have hc : c ∈ (u.reverse.dropWhile (fun c => c = '/')).takeWhile
        (fun c => c ≠ '/') := by
      have hmem : c ∈ ((u.reverse.dropWhile (fun c => c = '/')).takeWhile
          (fun c => c ≠ '/')).reverse := by
        rw [h]; exact List.mem_cons_self c cs
      exact List.mem_reverse.mp hmem
    have hp := List.mem_takeWhile_imp hc
    simpa using hp

/-- A draft whose primary reference is not absolute and whose
supplementary references are all non-absolute. -/
def pathClean (e : PaperEntity) : Bool :=
  !(isAbsolutePath e.mainURL) && e.supURLs.all (fun u => !(isAbsolutePath u))

theorem pathClean_normDraft (e : PaperEntity) : pathClean (normDraft e) = true := by
  rw [pathClean, normDraft]
  refine (Bool.and_eq_true _ _).mpr ⟨?_, ?_⟩
  · dsimp only
    split
    · rfl
    · simp [isAbsolutePath_basenamePosix]
  · dsimp only
    rw [List.all_eq_true]
    intro u hu
    exact (List.mem_filter.mp hu).2

theorem normalizeAll_mem {l : List (Option PaperEntity)}
    {normed : List PaperEntity} (h : normalizeAll l = some normed) :
    ∀ e ∈ normed, ∃ e0, e = normDraft e0 := by
  induction l generalizing normed with
  | nil =>
    rw [normalizeAll] at h
    cases h
    intro e he
    cases he
  | cons o rest ih =>
    cases o with
    | none => rw [normalizeAll] at h; cases h
    | some e0 =>
      rw [normalizeAll] at h
      cases hr : normalizeAll rest with
      | none => rw [hr] at h; cases h
      | some ns =>
        rw [hr] at h
        simp only [Option.map_some', Option.some.injEq] at h
        intro e he
        rw [← h] at he
        rcases List.mem_cons.mp he with heq | hmem
        · exact ⟨e0, heq⟩
        · exact ih hr e hmem

theorem stage3_acts_mem (env : Env) (l : List PaperEntity) :
    ∀ e o, Action.storeUpdate e o ∈ (stage3 env l).2 → e ∈ l := by
  induction l with
  | nil => intro e o h; cases h
  | cons d rest ih =>
    intro e o h
    simp only [stage3] at h
    rcases List.mem_cons.mp h with heq | hmem
    · have : e = d := by
        injection heq
      rw [this]; exact List.mem_cons_self d rest
    · exact List.mem_cons_of_mem d (ih e o hmem)

theorem stage3_result_mem (env : Env) (l : List PaperEntity) :
    ∀ e, e ∈ (stage3 env l).1.filterMap id → e ∈ l := by
  induction l with
  | nil => intro e h; cases h
  | cons d rest ih =>
    intro e h
    simp only [stage3] at h
    cases houtcome : env.repoUpdate d with
    | none =>
      rw [houtcome] at h
      simp only [List.filterMap_cons, id] at h
      exact List.mem_cons_of_mem d (ih e h)
    | some b =>
      cases b
      · rw [houtcome] at h
        simp only [List.filterMap_cons, id] at h
        exact List.mem_cons_of_mem d (ih e h)
      · rw [houtcome] at h
        simp only [List.filterMap_cons, id] at h
        rcases List.mem_cons.mp h with heq | hmem
        · rw [heq]; exact List.mem_cons_self d rest
        · exact List.mem_cons_of_mem d (ih e hmem)

theorem storeUpdate_not_stage1 (env : Env) (ds : List PaperEntity) :
    ∀ e o, Action.storeUpdate e o ∉
      ((ds.map (stage1One env)).map (fun x => x.2)).flatten := by
  intro e o h
  rcases List.mem_flatten.mp h with ⟨l, hl, hml⟩
  rcases List.mem_map.mp hl with ⟨pr, hpr, hpr2⟩
  rcases List.mem_map.mp hpr with ⟨d, _, hd2⟩
  rw [← hpr2, ← hd2, stage1One_snd] at hml
  simp at hml

theorem storeUpdate_not_stage4 (l : List PaperEntity)
    (us : List (Option PaperEntity)) :
    ∀ e o, Action.storeUpdate e o ∉ stage4 l us := by
  induction l generalizing us with
  | nil => intro e o h; cases h
  | cons f fs ih =>
    cases us with
    | nil => intro e o h; cases h
    | cons u tl =>
      intro e o h
      simp only [stage4] at h
      rcases List.mem_append.mp h with hpre | hrest
      · cases u with
        | none => simp at hpre
        | some ue =>
          dsimp only at hpre
          split at hpre <;> simp at hpre
      · exact ih tl e o hrest

/-- Claim C7: everything `update` persists or returns has been path-
normalized: the primary reference was blanked when still absolute and
reduced to its base name otherwise (never an absolute path in either
case), and still-absolute supplementary references were dropped. -/
theorem c7_normalized_paths (env : Env) (drafts : List PaperEntity) :
    (∀ e ∈ (PaperService.update env drafts).1, pathClean e = true) ∧
    (∀ e o, Action.storeUpdate e o ∈ (PaperService.update env drafts).2 →
      pathClean e = true) ∧
    (∀ e, isAbsolutePath e.mainURL = true → (normDraft e).mainURL = []) ∧
    (∀ e, isAbsolutePath e.mainURL = false →
      (normDraft e).mainURL = basenamePosix e.mainURL) ∧
    (∀ e, (normDraft e).supURLs =
      e.supURLs.filter (fun u => !(isAbsolutePath u))) := by
  refine ⟨?_, ?_, ?_, ?_, fun e => rfl⟩
  · intro e he
    rw [PaperService.update] at he
    by_cases hi : env.dbInitializing
    · rw [if_pos hi] at he; cases he
    · rw [if_neg hi] at he
      dsimp only at he
      cases hnorm : normalizeAll ((drafts.map (stage1One env)).map (fun x => x.1)) with
      | none => rw [hnorm] at he; cases he
      | some normed =>
        rw [hnorm] at he
        dsimp only at he
        have hmem := stage3_result_mem env normed e he
        rcases normalizeAll_mem hnorm e hmem with ⟨e0, rfl⟩
        exact pathClean_normDraft e0
  · intro e o hact
    rw [PaperService.update] at hact
    by_cases hi : env.dbInitializing
    · rw [if_pos hi] at hact; cases hact
    · rw [if_neg hi] at hact
      dsimp only at hact
      cases hnorm : normalizeAll ((drafts.map (stage1One env)).map (fun x => x.1)) with
      | none =>
        rw [hnorm] at hact
        exact absurd hact (storeUpdate_not_stage1 env drafts e o)
      | some normed =>
        rw [hnorm] at hact
        dsimp only at hact
        rcases List.mem_append.mp hact with h3 | hcache
        · rcases List.mem_append.mp h3 with h2 | h4
          · rcases List.mem_append.mp h2 with h1 | hst
            · exact absurd h1 (storeUpdate_not_stage1 env drafts e o)
            · have hmem := stage3_acts_mem env normed e o hst
              rcases normalizeAll_mem hnorm e hmem with ⟨e0, rfl⟩
              exact pathClean_normDraft e0
          · exact absurd h4 (storeUpdate_not_stage4 normed (stage3 env normed).1 e o)
        · simp at hcache
  · intro e habs
    rw [normDraft]
    dsimp only
    have hne : e.mainURL.isEmpty = false := by
      cases hu : e.mainURL with
      | nil => rw [hu] at habs; cases habs
      | cons c cs => rfl
    rw [if_pos]
    rw [hne, habs]
    rfl
  · intro e habs
    rw [normDraft]
    dsimp only
    rw [if_neg]
    rw [habs]
    simp

/-- A concrete non-initializing environment (identity collaborators). -/
def envOk : Env := { envInit with dbInitializing := false }

/-- A concrete draft with an absolute primary reference and one absolute
and one relative supplementary reference. -/
def dAbs : PaperEntity :=
  { mainURL := "/tmp/a.pdf".data, supURLs := ["/abs/s.pdf".data, "s2.pdf".data] }

/-- Witness for `c7_normalized_paths`: the draft actually persisted for
`dAbs` carries no absolute path. -/
theorem c7_normalized_paths_witness :
    Action.storeUpdate (normDraft dAbs) (some true) ∈
      (PaperService.update envOk [dAbs]).2 ∧
    pathClean (normDraft dAbs) = true :=
  ⟨by decide,
   (c7_normalized_paths envOk [dAbs]).2.1 (normDraft dAbs) (some true) (by decide)⟩

theorem specSubstF_of_scanDateF_nil (rd : Nat → List Char) :
    ∀ fuel l, scanDateF fuel l = [] → specSubstF rd fuel l = l := by
  intro fuel
  induction fuel with
  | zero => intro l _; rfl
  | succ f ih =>
    intro l h
    cases l with
    | nil => rfl
    | cons c cs =>
      simp only [scanDateF] at h
      cases hm : matchDate (c :: cs) with
      | some pr =>
        obtain ⟨m, rest⟩ := pr
        rw [hm] at h
        cases h
      | none =>
        rw [hm] at h
        simp only [specSubstF, hm]
        rw [ih cs h]

theorem replDateF_eq_specSubstF_const (repl : List Char) :
    ∀ fuel l, replDateF fuel l repl = specSubstF (fun _ => repl) fuel l := by
  intro fuel
  induction fuel with
  | zero => intro l; rfl
  | succ f ih =>
    intro l
    cases l with
    | nil => rfl
    | cons c cs =>
      simp only [replDateF, specSubstF]
      cases hm : matchDate (c :: cs) with
      | some pr =>
        obtain ⟨m, rest⟩ := pr
        dsimp only
        rw [ih rest]
      | none =>
        dsimp only
        rw [ih cs]

theorem scanDateF_head {fuel : Nat} {l m : List Char} {ms : List (List Char)}
    (h : scanDateF fuel l = m :: ms) :
    ∃ l2 r, matchDate l2 = some (m, r) := by
  induction fuel generalizing l with
  | zero => cases h
  | succ f ih =>
    cases l with
    | nil => cases h
    | cons c cs =>
      simp only [scanDateF] at h
      cases hm : matchDate (c :: cs) with
      | some pr =>
        obtain ⟨m2, rest⟩ := pr
        rw [hm] at h
        have hm2 : m2 = m := by
          injection h with h1 _
        rw [hm2] at hm
        exact ⟨c :: cs, rest, hm⟩
      | none =>
        rw [hm] at h
        exact ih h

theorem isJsWs_isDigit_false {c : Char} (h : isJsWs c = true) :
    c.isDigit = false := by
  rw [isJsWs] at h
  simp only [Bool.or_eq_true, decide_eq_true_eq] at h
  rcases h with ((h | h) | h) | h <;> subst h <;> decide

theorem takeWhile_eq_self_of_all {p : Char → Bool} {l : List Char}
    (h : l.all p = true) : l.takeWhile p = l := by
  have := takeWhile_append_of_all (p := p) (l := l) [] h
  simpa using this

theorem parseIntJS_digits {ds : List Char} (hne : ds ≠ [])
    (hdig : ds.all Char.isDigit = true) :
    parseIntJS ds = some (natOfDigits ds) := by
  rw [parseIntJS]
  have hdw : ds.dropWhile isJsWs = ds := by
    cases ds with
    | nil => rfl
    | cons c cs =>
      rw [List.dropWhile_cons]
      have hc : Char.isDigit c = true := by
        have h2 := hdig
        simp only [List.all_cons, Bool.and_eq_true] at h2
        exact h2.1
      have : isJsWs c = false := by
        cases hjs : isJsWs c with
        | false => rfl
        | true => rw [isJsWs_isDigit_false hjs] at hc; cases hc
      rw [this]
      simp
  rw [hdw, takeWhile_eq_self_of_all hdig]
  simp [hne]

theorem jsSlice_dateTok (ds : List Char) :
    jsSlice (dateTok ds) 1 (-6) = ds := by
  have hlen : (dateTok ds).length = ds.length + 7 := by
    simp [dateTok, daysSuffix]
  rw [jsSlice]
  dsimp only
  rw [hlen]
  have e1 : (if (1 : Int) < 0 then (max (((ds.length + 7 : Nat) : Int) + 1) 0).toNat
      else (min (1 : Int) ((ds.length + 7 : Nat) : Int)).toNat) = 1 := by
    rw [if_neg (by omega)]
    omega
  have e2 : (if (-6 : Int) < 0 then
        (max (((ds.length + 7 : Nat) : Int) + (-6)) 0).toNat
      else (min ((-6) : Int) ((ds.length + 7 : Nat) : Int)).toNat) = ds.length + 1 := by
    rw [if_pos (by omega)]
    omega
  rw [e1, e2]
  have hdrop : (dateTok ds).drop 1 = ds ++ daysSuffix := rfl
  rw [hdrop]
  have : ds.length + 1 - 1 = ds.length := by omega
  rw [this]
  exact List.take_left ds daysSuffix

theorem daysOfTok_dateTok (ds : List Char) (hdig : ds.all Char.isDigit = true) :
    daysOfTok (dateTok ds) = natOfDigits ds := by
  rw [daysOfTok]
  have hdrop : (dateTok ds).drop 1 = ds ++ daysSuffix := rfl
  rw [hdrop, takeWhile_append_of_all _ hdig]
  have : daysSuffix.takeWhile Char.isDigit = [] := rfl
  rw [this]
  simp

/-- The C2 claim as stated: each `[N DAYS]` occurrence is replaced by the
timestamp for its own `N`. -/
def c2AsStated : Prop :=
  ∀ (rd : Nat → List Char) (s : List Char),
    dateStage rd s = specSubstEachDate rd s

/-- Claim C2 counterexample: with two macros `[3 DAYS]` and `[5 DAYS]`,
the code substitutes the first macro's timestamp for both occurrences
(the day count is read from `dateMatch[0]` only), while the claim expects
each occurrence to get its own timestamp. -/
theorem c2_counterexample :
    dateStage (fun n => 'D' :: natDigits n)
        ("a > [3 DAYS] AND b > [5 DAYS]".data) =
      ("a > D3 AND b > D3".data) ∧
    specSubstEachDate (fun n => 'D' :: natDigits n)
        ("a > [3 DAYS] AND b > [5 DAYS]".data) =
      ("a > D3 AND b > D5".data) ∧
    ¬ c2AsStated := by
  refine ⟨by decide, by decide, fun h => ?_⟩
  have h2 := h (fun n => 'D' :: natDigits n)
    ("a > [3 DAYS] AND b > [5 DAYS]".data)
  exact absurd h2 (by decide)

/-- Claim C2 (amended): every `[N DAYS]` occurrence is replaced by the
timestamp rendered for the *first* occurrence's day count — all macros in
one compile receive the same timestamp, taken from `dateMatch[0]`. -/
theorem c2_first_match_substitution (rd : Nat → List Char) (s : List Char) :
    dateStage rd s = specSubstEachDate (fun _ => rd (firstDays s)) s := by
  rw [dateStage]
  cases hscan : matchAllDate s with
  | nil =>
    rw [specSubstEachDate]
    exact (specSubstF_of_scanDateF_nil _ s.length s hscan).symm
  | cons m ms =>
    dsimp only
    obtain ⟨l2, r, hm⟩ := scanDateF_head hscan
    obtain ⟨ds, hne, hdig, hmtok, _⟩ := matchDate_eq_some hm
    subst hmtok
    rw [jsSlice_dateTok, parseIntJS_digits hne hdig]
    dsimp only
    rw [firstDays, hscan]
    dsimp only
    rw [daysOfTok_dateTok ds hdig]
    rw [replaceAllDate, specSubstEachDate]
    exact replDateF_eq_specSubstF_const _ s.length s

theorem isJsWs_not_cmp {c : Char} (h : isJsWs c = true) : isCmpChar c = false := by
  rw [isJsWs] at h
  simp only [Bool.or_eq_true, decide_eq_true_eq] at h
  rcases h with ((h | h) | h) | h <;> subst h <;> decide

theorem isDigit_not_cmp {c : Char} (h : c.isDigit = true) :
    isCmpChar c = false := by
  rw [isCmpChar]
  have h1 : ¬ (c = '<') := fun he => by rw [he] at h; cases h
  have h2 : ¬ (c = '>') := fun he => by rw [he] at h; cases h
  simp [h1, h2]

theorem isJsWs_ne_eq {c : Char} (h : isJsWs c = true) : c ≠ '=' := by
  rw [isJsWs] at h
  simp only [Bool.or_eq_true, decide_eq_true_eq] at h
  rcases h with ((h | h) | h) | h <;> subst h <;> decide

theorem isJsWs_ne_lbracket {c : Char} (h : isJsWs c = true) : c ≠ '[' := by
  rw [isJsWs] at h
  simp only [Bool.or_eq_true, decide_eq_true_eq] at h
  rcases h with ((h | h) | h) | h <;> subst h <;> decide

theorem cmpFree_append {x y : List Char} :
    cmpFree (x ++ y) = (cmpFree x && cmpFree y) := by
  simp [cmpFree, List.all_append]

theorem cmpFree_of_all_ws {l : List Char} (h : l.all isJsWs = true) :
    cmpFree l = true := by
  rw [cmpFree, List.all_eq_true]
  intro c hc
  rw [List.all_eq_true] at h
  have := isJsWs_not_cmp (h c hc)
  simp [this]

theorem cmpFree_of_all_digits {l : List Char} (h : l.all Char.isDigit = true) :
    cmpFree l = true := by
  rw [cmpFree, List.all_eq_true]
  intro c hc
  rw [List.all_eq_true] at h
  have := isDigit_not_cmp (h c hc)
  simp [this]

theorem cmpFree_dateTok {ds : List Char} (h : ds.all Char.isDigit = true) :
    cmpFree (dateTok ds) = true := by
  have hds : cmpFree ds = true := cmpFree_of_all_digits h
  rw [cmpFree] at hds ⊢
  rw [dateTok]
  simp only [List.all_cons, List.all_append, hds]
  decide

theorem cmpFree_not_mem {l : List Char} (h : cmpFree l = true) {c : Char}
    (hmem : c ∈ l) : isCmpChar c = false := by
  rw [cmpFree, List.all_eq_true] at h
  have := h c hmem
  simpa using this

theorem matchCmpAt_none_of_not_cmp {c : Char} (t : List Char)
    (h : isCmpChar c = false) : matchCmpAt (c :: t) = none := by
  rw [isCmpChar] at h
  simp only [Bool.or_eq_false_iff, decide_eq_false_iff_not] at h
  rw [matchCmpAt.eq_def]
  dsimp only
  rw [if_neg h.1, if_neg h.2]

theorem cmpTail_eq_some {op r m rest : List Char}
    (h : cmpTail op r = some (m, rest)) :
    ∃ tok, m = op ++ r.takeWhile isJsWs ++ tok ∧
      r = r.takeWhile isJsWs ++ (tok ++ rest) ∧ tok ≠ [] := by
  rw [cmpTail] at h
  cases hm : matchDate (r.dropWhile isJsWs) with
  | none => rw [hm] at h; cases h
  | some pr =>
    obtain ⟨tok, rest2⟩ := pr
    rw [hm] at h
    dsimp only at h
    have h1 : op ++ r.takeWhile isJsWs ++ tok = m ∧ rest2 = rest := by
      have := Option.some.inj h
      exact ⟨congrArg Prod.fst this, congrArg Prod.snd this⟩
    obtain ⟨ds, hdsne, _, htok, hsplit⟩ := matchDate_eq_some hm
    refine ⟨tok, h1.1.symm, ?_, ?_⟩
    · have hr : r = r.takeWhile isJsWs ++ r.dropWhile isJsWs :=
        (List.takeWhile_append_dropWhile (p := isJsWs) (l := r)).symm
      rw [hsplit, ← htok, h1.2] at hr
      exact hr
    · rw [htok, dateTok]
      simp

theorem matchCmpAt_split {l m rest : List Char}
    (h : matchCmpAt l = some (m, rest)) : l = m ++ rest ∧ m ≠ [] := by
  have key : ∀ (op r : List Char), cmpTail op r = some (m, rest) →
      op ++ r = m ++ rest ∧ m ≠ [] := by
    intro op r hc
    obtain ⟨tok, hm, hr, htokne⟩ := cmpTail_eq_some hc
    constructor
    · conv_lhs => rw [hr]
      rw [hm]
      simp [List.append_assoc]
    · rw [hm]
      intro hnil
      simp only [List.append_eq_nil] at hnil
      exact htokne hnil.2
  match l with
  | [] => simp [matchCmpAt] at h
  | c :: cs =>
    rw [matchCmpAt.eq_def] at h
    dsimp only at h
    by_cases hlt : c = '<'
    · rw [if_pos hlt] at h
      subst hlt
      cases cs with
      | nil =>
        have := key ['<'] [] h
        simpa using this
      | cons d dt =>
        dsimp only at h
        by_cases he : d = '='
        · rw [if_pos he] at h
          subst he
          have := key ['<', '='] dt h
          simpa using this
        · rw [if_neg he] at h
          have := key ['<'] (d :: dt) h
          simpa using this
    · rw [if_neg hlt] at h
      by_cases hgt : c = '>'
      · rw [if_pos hgt] at h
        subst hgt
        cases cs with
        | nil =>
          have := key ['>'] [] h
          simpa using this
        | cons d dt =>
          dsimp only at h
          by_cases he : d = '='
          · rw [if_pos he] at h
            subst he
            have := key ['>', '='] dt h
            simpa using this
          · rw [if_neg he] at h
            have := key ['>'] (d :: dt) h
            simpa using this
      · rw [if_neg hgt] at h
        cases h

theorem scanCmpF_congr : ∀ (f1 f2 : Nat) (l : List Char), l.length ≤ f1 →
    l.length ≤ f2 → scanCmpF f1 l = scanCmpF f2 l := by
  intro f1
  induction f1 with
  | zero =>
    intro f2 l h1 _
    have hl : l = [] := List.length_eq_zero.mp (Nat.le_zero.mp h1)
    subst hl
    cases f2 <;> rfl
  | succ f ih =>
    intro f2 l h1 h2
    cases l with
    | nil => cases f2 <;> rfl
    | cons c cs =>
      cases f2 with
      | zero => simp at h2
      | succ g =>
        simp only [scanCmpF]
        cases hm : matchCmpAt (c :: cs) with
        | some pr =>
          obtain ⟨m, rest⟩ := pr
          dsimp only
          have hsplit := matchCmpAt_split hm
          have hlen : (c :: cs).length = m.length + rest.length := by
            rw [hsplit.1]; simp
          have hm1 : 1 ≤ m.length := by
            cases hmm : m with
            | nil => exact absurd hmm hsplit.2
            | cons x xs => simp
          have hrest : rest.length ≤ f := by
            simp only [List.length_cons] at h1 hlen
            omega
          have hrest2 : rest.length ≤ g := by
            simp only [List.length_cons] at h2 hlen
            omega
          rw [ih g rest hrest hrest2]
        | none =>
          dsimp only
          have hc1 : cs.length ≤ f := by simp at h1; omega
          have hc2 : cs.length ≤ g := by simp at h2; omega
          exact ih g cs hc1 hc2

theorem scanCmpF_append_cmpFree : ∀ (x r : List Char), cmpFree x = true →
    scanCmpF (x.length + r.length) (x ++ r) = scanCmpF r.length r := by
  intro x
  induction x with
  | nil => intro r _; simp
  | cons c cs ih =>
    intro r hx
    rw [cmpFree] at hx
    simp only [List.all_cons, Bool.and_eq_true] at hx
    have hcmp : isCmpChar c = false := by simpa using hx.1
    have hnone := matchCmpAt_none_of_not_cmp (cs ++ r) hcmp
    simp only [List.cons_append, List.length_cons]
    rw [show cs.length + 1 + r.length = (cs.length + r.length) + 1 from by omega]
    simp only [scanCmpF, hnone]
    exact ih r hx.2

theorem matchDate_junction {ds : List Char} (b : List Char) (hne : ds ≠ [])
    (hdig : ds.all Char.isDigit = true) :
    matchDate (dateTok ds ++ b) = some (dateTok ds, b) := by
  have hshape : dateTok ds ++ b = '[' :: (ds ++ (daysSuffix ++ b)) := by
    rw [dateTok]; simp
  rw [hshape, matchDate]
  rw [if_pos rfl]
  have hsfx : daysSuffix ++ b = ' ' :: (['D', 'A', 'Y', 'S', ']'] ++ b) := rfl
  have htw : (ds ++ (daysSuffix ++ b)).takeWhile Char.isDigit = ds := by
    rw [takeWhile_append_of_all _ hdig, hsfx, List.takeWhile_cons]
    simp
  have hdw : (ds ++ (daysSuffix ++ b)).dropWhile Char.isDigit = daysSuffix ++ b := by
    rw [dropWhile_append_of_all _ hdig]
    conv_lhs => rw [hsfx]
    rw [List.dropWhile_cons]
    simp [hsfx]
  dsimp only
  rw [htw, hdw]
  rw [if_neg (by simp [hne])]
  rw [stripPre_append]

theorem cmpTail_junction (op : List Char) {ws ds : List Char} (b : List Char)
    (hws : ws.all isJsWs = true) (hne : ds ≠ [])
    (hdig : ds.all Char.isDigit = true) :
    cmpTail op (ws ++ (dateTok ds ++ b)) = some (op ++ ws ++ dateTok ds, b) := by
  rw [cmpTail]
  have hlb : isJsWs '[' = false := by decide
  have hshape : dateTok ds ++ b = '[' :: (ds ++ daysSuffix ++ b) := by
    rw [dateTok]; simp
  have htw : (ws ++ (dateTok ds ++ b)).takeWhile isJsWs = ws := by
    rw [takeWhile_append_of_all _ hws, hshape, List.takeWhile_cons, hlb]
    simp
  have hdw : (ws ++ (dateTok ds ++ b)).dropWhile isJsWs = dateTok ds ++ b := by
    rw [dropWhile_append_of_all _ hws]
    conv_lhs => rw [hshape]
    rw [List.dropWhile_cons, hlb]
    simp [hshape]
  rw [htw, hdw, matchDate_junction b hne hdig]

theorem head_ne_eq_of_ws_tok {ws ds b : List Char} {d : Char} {t : List Char}
    (hws : ws.all isJsWs = true)
    (hdt : ws ++ (dateTok ds ++ b) = d :: t) : d ≠ '=' := by
  cases ws with
  | nil =>
    rw [List.nil_append, dateTok, List.cons_append] at hdt
    have : '[' = d := (List.cons.injEq _ _ _ _).mp hdt |>.1
    rw [← this]
    decide
  | cons w wr =>
    rw [List.cons_append] at hdt
    have hwd : w = d := (List.cons.injEq _ _ _ _).mp hdt |>.1
    have hw : isJsWs w = true := by
      simp only [List.all_cons, Bool.and_eq_true] at hws
      exact hws.1
    rw [← hwd]
    exact isJsWs_ne_eq hw

theorem matchCmpAt_cons_op {c : Char} {cs : List Char}
    (hc : isCmpChar c = true)
    (hhead : ∀ d t, cs = d :: t → d ≠ '=') :
    matchCmpAt (c :: cs) = cmpTail [c] cs := by
  rw [isCmpChar] at hc
  simp only [Bool.or_eq_true, decide_eq_true_eq] at hc
  rw [matchCmpAt.eq_def]
  dsimp only
  rcases hc with hc | hc
  · rw [if_pos hc]
    subst hc
    cases cs with
    | nil => rfl
    | cons d dt =>
      dsimp only
      rw [if_neg (hhead d dt rfl)]
  · have hlt : ¬ (c = '<') := by
      intro he
      rw [he] at hc
      cases hc
    rw [if_neg hlt, if_pos hc]
    subst hc
    cases cs with
    | nil => rfl
    | cons d dt =>
      dsimp only
      rw [if_neg (hhead d dt rfl)]

theorem matchCmpAt_junction (op : CmpOp) {ws ds : List Char} (b : List Char)
    (hws : ws.all isJsWs = true) (hne : ds ≠ [])
    (hdig : ds.all Char.isDigit = true) :
    matchCmpAt (opChars op ++ (ws ++ (dateTok ds ++ b))) =
      some (opChars op ++ ws ++ dateTok ds, b) := by
  cases op with
  | lt =>
    have h1 : opChars CmpOp.lt ++ (ws ++ (dateTok ds ++ b)) =
        '<' :: (ws ++ (dateTok ds ++ b)) := rfl
    rw [h1, matchCmpAt_cons_op (by decide)
      (fun d t hdt => head_ne_eq_of_ws_tok hws hdt)]
    exact cmpTail_junction ['<'] b hws hne hdig
  | gt =>
    have h1 : opChars CmpOp.gt ++ (ws ++ (dateTok ds ++ b)) =
        '>' :: (ws ++ (dateTok ds ++ b)) := rfl
    rw [h1, matchCmpAt_cons_op (by decide)
      (fun d t hdt => head_ne_eq_of_ws_tok hws hdt)]
    exact cmpTail_junction ['>'] b hws hne hdig
  | le =>
    have h1 : opChars CmpOp.le ++ (ws ++ (dateTok ds ++ b)) =
        '<' :: '=' :: (ws ++ (dateTok ds ++ b)) := rfl
    rw [h1, matchCmpAt.eq_def]
    dsimp only
    rw [if_pos rfl, if_pos rfl]
    exact cmpTail_junction ['<', '='] b hws hne hdig
  | ge =>
    have h1 : opChars CmpOp.ge ++ (ws ++ (dateTok ds ++ b)) =
        '>' :: '=' :: (ws ++ (dateTok ds ++ b)) := rfl
    rw [h1, matchCmpAt.eq_def]
    dsimp only
    have hgt : ¬ ('>' = '<') := by decide
    rw [if_neg hgt, if_pos rfl, if_pos rfl]
    exact cmpTail_junction ['>', '='] b hws hne hdig

theorem scanCmpF_nil_of_cmpFree {b : List Char} (hb : cmpFree b = true)
    (fuel : Nat) (hf : b.length ≤ fuel) : scanCmpF fuel b = [] := by
  have h1 := scanCmpF_append_cmpFree b [] hb
  simp only [List.append_nil, List.length_nil, Nat.add_zero] at h1
  rw [scanCmpF_congr fuel b.length b hf le_rfl, h1]
  rfl

theorem scanCmpF_match_step {l m rest : List Char} {fuel : Nat}
    (h : matchCmpAt l = some (m, rest)) :
    scanCmpF (fuel + 1) l = m :: scanCmpF fuel rest := by
  cases l with
  | nil => simp [matchCmpAt] at h
  | cons c cs => simp only [scanCmpF, h]

theorem matchAllCmp_single {a b ws ds : List Char} (op : CmpOp)
    (ha : cmpFree a = true) (hb : cmpFree b = true)
    (hws : ws.all isJsWs = true) (hne : ds ≠ [])
    (hdig : ds.all Char.isDigit = true) :
    matchAllCmp (a ++ (opChars op ++ (ws ++ (dateTok ds ++ b)))) =
      [opChars op ++ ws ++ dateTok ds] := by
  rw [matchAllCmp]
  rw [show (a ++ (opChars op ++ (ws ++ (dateTok ds ++ b)))).length =
    a.length + (opChars op ++ (ws ++ (dateTok ds ++ b))).length from by simp]
  rw [scanCmpF_append_cmpFree a _ ha]
  have hjunction := matchCmpAt_junction op b hws hne hdig
  have hsplit := matchCmpAt_split hjunction
  have hm1 : 1 ≤ (opChars op ++ ws ++ dateTok ds).length := by
    cases op <;> simp [opChars]
  have hlen : (opChars op ++ (ws ++ (dateTok ds ++ b))).length =
      (opChars op ++ ws ++ dateTok ds).length + b.length := by
    simp [dateTok]
    omega
  have hk : ∃ k, (opChars op ++ (ws ++ (dateTok ds ++ b))).length = k + 1 := by
    refine ⟨(opChars op ++ (ws ++ (dateTok ds ++ b))).length - 1, ?_⟩
    omega
  obtain ⟨k, hkeq⟩ := hk
  rw [hkeq, scanCmpF_match_step hjunction]
  have hbk : b.length ≤ k := by omega
  rw [scanCmpF_nil_of_cmpFree hb k hbk]

theorem replLitF_single (c : Char) (r : List Char) :
    ∀ fuel l, l.length ≤ fuel →
      replLitF fuel l [c] r = l.flatMap (fun d => if d = c then r else [d]) := by
  intro fuel
  induction fuel with
  | zero =>
    intro l h
    have hl : l = [] := List.length_eq_zero.mp (Nat.le_zero.mp h)
    subst hl; rfl
  | succ f ih =>
    intro l h
    cases l with
    | nil => rfl
    | cons d t =>
      simp only [replLitF]
      have hstrip : stripPre [c] (d :: t) = if d = c then some t else none := by
        by_cases hdc : d = c
        · rw [if_pos hdc, stripPre, if_pos hdc]; rfl
        · rw [if_neg hdc, stripPre, if_neg hdc]
      rw [hstrip]
      by_cases hdc : d = c
      · rw [if_pos hdc]
        dsimp only
        rw [List.flatMap_cons, if_pos hdc]
        rw [ih t (by simp at h; omega)]
      · rw [if_neg hdc]
        dsimp only
        rw [List.flatMap_cons, if_neg hdc]
        rw [ih t (by simp at h; omega)]
        rfl

theorem replaceAllLit_single (l : List Char) (c : Char) (r : List Char) :
    replaceAllLit l [c] r = l.flatMap (fun d => if d = c then r else [d]) :=
  replLitF_single c r l.length l le_rfl

theorem flatMap_id_of_ne {c : Char} {r : List Char} {l : List Char}
    (h : ∀ d ∈ l, ¬ (d = c)) :
    l.flatMap (fun d => if d = c then r else [d]) = l := by
  induction l with
  | nil => rfl
  | cons d t ih =>
    rw [List.flatMap_cons, if_neg (h d (List.mem_cons_self d t))]
    rw [ih (fun x hx => h x (List.mem_cons_of_mem d hx))]
    rfl

theorem replLitF_no_occur {p0 : Char} {pt repl : List Char} :
    ∀ fuel (l : List Char), (∀ d ∈ l, ¬ (d = p0)) → l.length ≤ fuel →
      replLitF fuel l (p0 :: pt) repl = l := by
  intro fuel
  induction fuel with
  | zero =>
    intro l _ h
    have hl : l = [] := List.length_eq_zero.mp (Nat.le_zero.mp h)
    subst hl; rfl
  | succ f ih =>
    intro l hl h
    cases l with
    | nil => rfl
    | cons d t =>
      simp only [replLitF]
      have hstrip : stripPre (p0 :: pt) (d :: t) = none := by
        rw [stripPre, if_neg (hl d (List.mem_cons_self d t))]
      rw [hstrip]
      dsimp only
      rw [ih t (fun x hx => hl x (List.mem_cons_of_mem d hx)) (by simp at h; omega)]

theorem replLitF_exact {p0 : Char} {pt repl : List Char} {x y : List Char}
    (hx : ∀ d ∈ x, ¬ (d = p0)) (hy : ∀ d ∈ y, ¬ (d = p0)) :
    ∀ fuel, (x ++ (p0 :: pt) ++ y).length ≤ fuel →
      replLitF fuel (x ++ (p0 :: pt) ++ y) (p0 :: pt) repl = x ++ repl ++ y := by
  induction x with
  | nil =>
    intro fuel h
    cases fuel with
    | zero => simp at h
    | succ f =>
      rw [List.nil_append] at h ⊢
      simp only [replLitF, List.append_eq]
      rw [show stripPre (p0 :: pt) (p0 :: (pt ++ y)) = some y from stripPre_append _ _]
      dsimp only
      rw [replLitF_no_occur f y hy (by simp at h; omega)]
      simp
  | cons d dt ih =>
    intro fuel h
    cases fuel with
    | zero => simp at h
    | succ f =>
      rw [show ((d :: dt) ++ (p0 :: pt) ++ y : List Char) =
        d :: (dt ++ (p0 :: pt) ++ y) from by simp]
      simp only [replLitF]
      have hstrip : stripPre (p0 :: pt) (d :: (dt ++ (p0 :: pt) ++ y)) = none := by
        rw [stripPre, if_neg (hx d (List.mem_cons_self d dt))]
      rw [hstrip]
      dsimp only
      rw [ih (fun e he => hx e (List.mem_cons_of_mem d he)) f
        (by simp at h ⊢; omega)]
      simp

theorem replaceAllLit_unique {a b : List Char} {p0 : Char} {pt repl : List Char}
    (hx : ∀ d ∈ a, ¬ (d = p0)) (hy : ∀ d ∈ b, ¬ (d = p0)) :
    replaceAllLit (a ++ (p0 :: pt) ++ b) (p0 :: pt) repl = a ++ repl ++ b :=
  replLitF_exact hx hy _ le_rfl

theorem ne_of_not_cmp {d c : Char} (h1 : isCmpChar d = false)
    (h2 : isCmpChar c = true) : ¬ (d = c) := by
  intro he
  rw [he, h2] at h1
  cases h1

theorem not_mem_of_cmpFree {l : List Char} {c : Char} (h : cmpFree l = true)
    (hc : isCmpChar c = true) : c ∉ l := by
  intro hmem
  have := cmpFree_not_mem h hmem
  rw [this] at hc
  cases hc

theorem contains_eq_true_of_mem {l : List Char} {c : Char} (h : c ∈ l) :
    l.contains c = true :=
  List.elem_iff.mpr h

theorem contains_eq_false_of_not_mem {l : List Char} {c : Char} (h : c ∉ l) :
    l.contains c = false := by
  cases hc : l.contains c with
  | false => rfl
  | true => exact absurd (List.elem_iff.mp hc) h

theorem replaceAllLit_m_swap (op : CmpOp) {ws ds : List Char} (c : Char)
    (r : List Char) (hws : ws.all isJsWs = true)
    (hdig : ds.all Char.isDigit = true) (hc : isCmpChar c = true) :
    replaceAllLit (opChars op ++ ws ++ dateTok ds) [c] r =
      ((opChars op).flatMap (fun d => if d = c then r else [d])) ++ ws ++
        dateTok ds := by
  rw [replaceAllLit_single]
  rw [List.flatMap_append, List.flatMap_append]
  congr 1
  congr 1
  · exact flatMap_id_of_ne (fun d hd =>
      ne_of_not_cmp (isJsWs_not_cmp (List.all_eq_true.mp hws d hd)) hc)
  · exact flatMap_id_of_ne (fun d hd =>
      ne_of_not_cmp (cmpFree_not_mem (cmpFree_dateTok hdig) hd) hc)

/-- Claim C1 (amended): an operator immediately preceding a `[N DAYS]`
token is inverted (`<`↔`>`, `<=`↔`>=`) before substitution whenever it
is the only comparison-operator occurrence in the search string (no
other `<` or `>` characters anywhere); in general the loop chooses the
replacement direction from the whole current string (`<` wins when
present anywhere), so an occurrence can be left uninverted — see the
counterexample. -/
theorem c1_single_operator_inverted (a b ws ds : List Char) (op : CmpOp)
    (ha : cmpFree a = true) (hb : cmpFree b = true)
    (hws : ws.all isJsWs = true) (hne : ds ≠ [])
    (hdig : ds.all Char.isDigit = true) :
    invertStage (a ++ (opChars op ++ (ws ++ (dateTok ds ++ b)))) =
      a ++ (opChars (invOp op) ++ (ws ++ (dateTok ds ++ b))) := by
  have hxa : ∀ {c : Char}, isCmpChar c = true → ∀ d ∈ a, ¬ (d = c) :=
    fun hc d hd => ne_of_not_cmp (cmpFree_not_mem ha hd) hc
  have hxb : ∀ {c : Char}, isCmpChar c = true → ∀ d ∈ b, ¬ (d = c) :=
    fun hc d hd => ne_of_not_cmp (cmpFree_not_mem hb hd) hc
  have hnotws : ∀ {c : Char}, isCmpChar c = true → c ∉ ws :=
    fun hc => not_mem_of_cmpFree (cmpFree_of_all_ws hws) hc
  have hnottok : ∀ {c : Char}, isCmpChar c = true → c ∉ dateTok ds :=
    fun hc => not_mem_of_cmpFree (cmpFree_dateTok hdig) hc
  rw [invertStage, matchAllCmp_single op ha hb hws hne hdig]
  simp only [invertLoop]
  cases op with
  | lt =>
    have hmem : '<' ∈ a ++ (opChars CmpOp.lt ++ (ws ++ (dateTok ds ++ b))) := by
      simp [opChars]
    rw [contains_eq_true_of_mem hmem, if_pos rfl]
    have hinv := replaceAllLit_m_swap CmpOp.lt '<' ['>'] hws hdig (by decide)
    rw [show (opChars CmpOp.lt).flatMap
      (fun d => if d = '<' then ['>'] else [d]) = opChars CmpOp.gt
      from by decide] at hinv
    rw [hinv]
    rw [show a ++ (opChars CmpOp.lt ++ (ws ++ (dateTok ds ++ b))) =
      a ++ (opChars CmpOp.lt ++ ws ++ dateTok ds) ++ b from by
        simp [List.append_assoc]]
    rw [show opChars CmpOp.lt ++ ws ++ dateTok ds =
      '<' :: (ws ++ dateTok ds) from by simp [opChars]]
    rw [replaceAllLit_unique (hxa (by decide)) (hxb (by decide))]
    simp [opChars, invOp, List.append_assoc]
  | le =>
    have hmem : '<' ∈ a ++ (opChars CmpOp.le ++ (ws ++ (dateTok ds ++ b))) := by
      simp [opChars]
    rw [contains_eq_true_of_mem hmem, if_pos rfl]
    have hinv := replaceAllLit_m_swap CmpOp.le '<' ['>'] hws hdig (by decide)
    rw [show (opChars CmpOp.le).flatMap
      (fun d => if d = '<' then ['>'] else [d]) = opChars CmpOp.ge
      from by decide] at hinv
    rw [hinv]
    rw [show a ++ (opChars CmpOp.le ++ (ws ++ (dateTok ds ++ b))) =
      a ++ (opChars CmpOp.le ++ ws ++ dateTok ds) ++ b from by
        simp [List.append_assoc]]
    rw [show opChars CmpOp.le ++ ws ++ dateTok ds =
      '<' :: ('=' :: (ws ++ dateTok ds)) from by simp [opChars]]
    rw [replaceAllLit_unique (hxa (by decide)) (hxb (by decide))]
    simp [opChars, invOp, List.append_assoc]
  | gt =>
    have hnotin : '<' ∉ a ++ (opChars CmpOp.gt ++ (ws ++ (dateTok ds ++ b))) := by
      intro hmem
      rcases List.mem_append.mp hmem with h1 | h2
      · exact hxa (by decide) '<' h1 rfl
      · rcases List.mem_append.mp h2 with h3 | h4
        · simp [opChars] at h3
        · rcases List.mem_append.mp h4 with h5 | h6
          · exact hnotws (by decide) h5
          · rcases List.mem_append.mp h6 with h7 | h8
            · exact hnottok (by decide) h7
            · exact hxb (by decide) '<' h8 rfl
    rw [contains_eq_false_of_not_mem hnotin]
    rw [if_neg (by simp)]
    have hmem : '>' ∈ a ++ (opChars CmpOp.gt ++ (ws ++ (dateTok ds ++ b))) := by
      simp [opChars]
    rw [contains_eq_true_of_mem hmem, if_pos rfl]
    have hinv := replaceAllLit_m_swap CmpOp.gt '>' ['<'] hws hdig (by decide)
    rw [show (opChars CmpOp.gt).flatMap
      (fun d => if d = '>' then ['<'] else [d]) = opChars CmpOp.lt
      from by decide] at hinv
    rw [hinv]
    rw [show a ++ (opChars CmpOp.gt ++ (ws ++ (dateTok ds ++ b))) =
      a ++ (opChars CmpOp.gt ++ ws ++ dateTok ds) ++ b from by
        simp [List.append_assoc]]
    rw [show opChars CmpOp.gt ++ ws ++ dateTok ds =
      '>' :: (ws ++ dateTok ds) from by simp [opChars]]
    rw [replaceAllLit_unique (hxa (by decide)) (hxb (by decide))]
    simp [opChars, invOp, List.append_assoc]
  | ge =>
    have hnotin : '<' ∉ a ++ (opChars CmpOp.ge ++ (ws ++ (dateTok ds ++ b))) := by
      intro hmem
      rcases List.mem_append.mp hmem with h1 | h2
      · exact hxa (by decide) '<' h1 rfl
      · rcases List.mem_append.mp h2 with h3 | h4
        · simp [opChars] at h3
        · rcases List.mem_append.mp h4 with h5 | h6
          · exact hnotws (by decide) h5
          · rcases List.mem_append.mp h6 with h7 | h8
            · exact hnottok (by decide) h7
            · exact hxb (by decide) '<' h8 rfl
    rw [contains_eq_false_of_not_mem hnotin]
    rw [if_neg (by simp)]
    have hmem : '>' ∈ a ++ (opChars CmpOp.ge ++ (ws ++ (dateTok ds ++ b))) := by
      simp [opChars]
    rw [contains_eq_true_of_mem hmem, if_pos rfl]
    have hinv := replaceAllLit_m_swap CmpOp.ge '>' ['<'] hws hdig (by decide)
    rw [show (opChars CmpOp.ge).flatMap
      (fun d => if d = '>' then ['<'] else [d]) = opChars CmpOp.le
      from by decide] at hinv
    rw [hinv]
    rw [show a ++ (opChars CmpOp.ge ++ (ws ++ (dateTok ds ++ b))) =
      a ++ (opChars CmpOp.ge ++ ws ++ dateTok ds) ++ b from by
        simp [List.append_assoc]]
    rw [show opChars CmpOp.ge ++ ws ++ dateTok ds =
      '>' :: ('=' :: (ws ++ dateTok ds)) from by simp [opChars]]
    rw [replaceAllLit_unique (hxa (by decide)) (hxb (by decide))]
    simp [opChars, invOp, List.append_assoc]

/-- The C1 claim as stated: every matched comparison operator that
immediately precedes a `[N DAYS]` token is inverted based on that
occurrence itself, regardless of the rest of the string. -/
def c1AsStated : Prop :=
  ∀ s : List Char, invertStage s = specInvertEachOp s

/-- Claim C1 counterexample: in `"flag < 1 AND addTime > [3 DAYS]"` the
`>` before the macro is NOT inverted, because the loop's direction test
`formatedSearch.includes("<")` sees the unrelated `<` elsewhere in the
string and tries to replace `<` inside a match that contains none. -/
theorem c1_counterexample :
    invertStage ("flag < 1 AND addTime > [3 DAYS]".data) =
      ("flag < 1 AND addTime > [3 DAYS]".data) ∧
    specInvertEachOp ("flag < 1 AND addTime > [3 DAYS]".data) =
      ("flag < 1 AND addTime < [3 DAYS]".data) ∧
    ¬ c1AsStated := by
  refine ⟨by decide, by decide, fun h => ?_⟩
  have h2 := h ("flag < 1 AND addTime > [3 DAYS]".data)
  exact absurd h2 (by decide)

/-- Witness for `c1_single_operator_inverted`: the single `>` of
`"addTime > [3 DAYS]"` is inverted to `<`. -/
theorem c1_single_operator_inverted_witness :
    (cmpFree ("addTime ".data) = true ∧ cmpFree ([] : List Char) = true ∧
      ([' '] : List Char).all isJsWs = true ∧ (['3'] : List Char) ≠ [] ∧
      (['3'] : List Char).all Char.isDigit = true) ∧
    invertStage ("addTime ".data ++ (opChars CmpOp.gt ++
        ([' '] ++ (dateTok ['3'] ++ [])))) =
      "addTime ".data ++ (opChars (invOp CmpOp.gt) ++
        ([' '] ++ (dateTok ['3'] ++ []))) :=
  ⟨⟨by decide, by decide, by decide, by decide, by decide⟩,
   c1_single_operator_inverted ("addTime ".data) [] [' '] ['3'] CmpOp.gt
     (by decide) (by decide) (by decide) (by decide) (by decide)⟩
